import Mathlib

/-!
Verification of the interval-analysis engine of the Layer Coverage Viewer.

The engine definitions below are translated from `app_dash.py`; the
namespace `StreamlitApp` further down holds the independent translation of
the engine functions of `app_streamlit.py`.  Python `int` is modelled as
`ℤ`, Python `float` percentages as `ℚ` (exact at every point the claims
touch), Python dicts — which preserve insertion order — as association
lists built in insertion order, Python's stable `list.sort`/`sorted` as
`List.mergeSort`, and the `ValueError` raised by `min`/`max` on an empty
sequence as `Option.none`.
-/

namespace LayerViewer

/-- An interval `{start, end}` as consumed by `merge_intervals`.  The
Python key `end` is a Lean keyword and is written `«end»`. -/
structure Interval where
  start : Int
  «end» : Int
deriving DecidableEq, Repr

/-- A record `{layer, start, end, bill?, month?}` (spec §3).  A missing
`bill`/`month` key is `none`; Python truthiness additionally treats an
empty string as absent, see `getTruthy`. -/
structure Record where
  layer : String
  start : Int
  «end» : Int
  bill : Option String
  month : Option String
deriving DecidableEq, Repr

/-- An output entry `{start, end, len}` of the overlap and gap detectors. -/
structure Entry where
  start : Int
  «end» : Int
  len : Int
deriving DecidableEq, Repr

/-- A display segment emitted by `build_stretch_segments`. -/
structure Segment where
  chunk_start : Int
  chunk_label : String
  layer : String
  rel_start : Int
  rel_end : Int
  abs_start : Int
  abs_end : Int
deriving DecidableEq, Repr

def CHUNK_SIZE : Int := 1000

/-- Python truthiness of an optional string: `r.get("bill")` is falsy both
when the key is missing and when it holds the empty string. -/
def getTruthy (o : Option String) : Option String :=
  match o with
  | some s => if s = "" then none else some s
  | none => none

/-- Insert `a` into an already sorted list, after every element `b` with
`le b a`: the insertion step of a stable insertion sort. -/
def insertStable (le : α → α → Bool) (a : α) : List α → List α
  | [] => [a]
  | b :: bs => if le b a then b :: insertStable le a bs else a :: b :: bs

/-- Python's `sorted`/`list.sort` is a stable sort; for a total preorder a
stable sort's output is uniquely determined, so this stable insertion
sort (elements inserted left to right, each after its ties) models it
exactly. -/
def sortedBy (le : α → α → Bool) (l : List α) : List α :=
  l.foldl (fun acc x => insertStable le x acc) []

/-- The accumulation loop of `merge_intervals`: `last` is the running last
element of the Python `merged` list (mutated in place there, carried as an
argument here); `cur.start ≤ last.end` extends it, otherwise it is
committed and `cur` starts a new group. -/
def mergeAux (last : Interval) : List Interval → List Interval
  | [] => [last]
  | cur :: rest =>
    if cur.start ≤ last.«end» then
      mergeAux ⟨last.start, max last.«end» cur.«end»⟩ rest
    else
      last :: mergeAux cur rest

/-- Translation of `merge_intervals` (app_dash.py lines 128–139): sort by `start`
(Python's stable sort), then accumulate.  The empty input falls into the
first match arm, mirroring the `if not intervals: return []` guard. -/
def merge_intervals (intervals : List Interval) : List Interval :=
  match sortedBy (fun a b => decide (a.start ≤ b.start)) intervals with
  | [] => []
  | x :: xs => mergeAux x xs

/-- The double loop `for i, for j in range(i+1, n)` of
`find_overlaps_within_layer`: every pair with the earlier element first,
keeping the intersection `[max starts, min ends)` only when non-empty. -/
def intervalPairsOverlaps : List Interval → List Interval
  | [] => []
  | a :: rest =>
    (rest.filterMap fun b =>
      let s := max a.start b.start
      let e := min a.«end» b.«end»
      if s < e then some ⟨s, e⟩ else none)
    ++ intervalPairsOverlaps rest

/-- Python `by_layer.setdefault(layer, []).append(interval)` on an
insertion-ordered association list. -/
def setdefaultAppend (m : List (String × List Interval)) (k : String)
    (v : Interval) : List (String × List Interval) :=
  match m with
  | [] => [(k, [v])]
  | (k', vs) :: rest =>
    if k' = k then (k', vs ++ [v]) :: rest
    else (k', vs) :: setdefaultAppend rest k v

/-- The `by_layer` dict built by `find_overlaps_within_layer`,
`find_gaps_per_layer` and `compute_progress`. -/
def byLayer (records : List Record) : List (String × List Interval) :=
  records.foldl (fun m r => setdefaultAppend m r.layer ⟨r.start, r.«end»⟩) []

/-- Translation of `find_overlaps_within_layer` (app_dash.py lines 142–158). -/
def find_overlaps_within_layer (records : List Record) :
    List (String × List Entry) :=
  (byLayer records).map fun p =>
    (p.1, (merge_intervals (intervalPairsOverlaps p.2)).map fun m =>
      ⟨m.start, m.«end», m.«end» - m.start⟩)

/-- Python `min(r["start"] for r in records)`: `none` models the
`ValueError` raised on an empty sequence. -/
def minStart? (records : List Record) : Option Int :=
  match records with
  | [] => none
  | r :: rs => some (rs.foldl (fun m x => min m x.start) r.start)

/-- Python `max(r["end"] for r in records)`: `none` models the
`ValueError` raised on an empty sequence. -/
def maxEnd? (records : List Record) : Option Int :=
  match records with
  | [] => none
  | r :: rs => some (rs.foldl (fun m x => max m x.«end») r.«end»)

/-- The gap-walking loop of `find_gaps_per_layer`: `pos` advances over the
merged segments, emitting a gap whenever `pos < seg.start`, and a trailing
gap `[pos, max_end)` after the last segment when `pos < max_end`. -/
def gapsAux (pos : Int) (segs : List Interval) (maxEnd : Int) : List Entry :=
  match segs with
  | [] => if pos < maxEnd then [⟨pos, maxEnd, maxEnd - pos⟩] else []
  | seg :: rest =>
    (if pos < seg.start then [⟨pos, seg.start, seg.start - pos⟩] else [])
    ++ gapsAux (max pos seg.«end») rest maxEnd

/-- Translation of `find_gaps_per_layer` (app_dash.py lines 161–179).  The two leading
`min`/`max` expressions raise on an empty record list, hence the `Option`
result. -/
def find_gaps_per_layer (records : List Record) :
    Option (List (String × List Entry)) := do
  let min_start ← minStart? records
  let max_end ← maxEnd? records
  pure ((byLayer records).map fun p =>
    (p.1, gapsAux min_start (merge_intervals p.2) max_end))

/-- The `while c <= c_end` loop of `build_stretch_segments`, stepping by
`CHUNK_SIZE`; the fuel argument is chosen large enough that it never runs
out (the step is positive). -/
def chunkSeq (c cEnd : Int) : Nat → List Int
  | 0 => []
  | fuel + 1 =>
    if c ≤ cEnd then c :: chunkSeq (c + CHUNK_SIZE) cEnd fuel else []

/-- The chunk starts visited for one record: `c_start = (start//CHUNK)*CHUNK`
up to `c_end = (end//CHUNK)*CHUNK` inclusive (Python `//` is floor
division, `Int.fdiv`). -/
def chunksFor (r : Record) : List Int :=
  let cStart := r.start.fdiv CHUNK_SIZE * CHUNK_SIZE
  let cEnd := r.«end».fdiv CHUNK_SIZE * CHUNK_SIZE
  chunkSeq cStart cEnd ((cEnd - cStart).toNat + 1)

/-- The segments one record contributes: for each visited chunk `c`,
intersect `[start, end)` with `[c, c+CHUNK)` and emit it when non-empty. -/
def segsFor (r : Record) : List Segment :=
  (chunksFor r).filterMap fun c =>
    let segStart := max r.start c
    let segEnd := min r.«end» (c + CHUNK_SIZE)
    if segStart < segEnd then
      some ⟨c, toString c ++ "-" ++ toString (c + CHUNK_SIZE), r.layer,
            segStart - c, segEnd - c, segStart, segEnd⟩
    else none

/-- Result record of `build_stretch_segments`. -/
structure StretchData where
  segments : List Segment
  layers : List String
  chunks : List Int
deriving DecidableEq, Repr

/-- The Python sort key `(chunk_start, layer, rel_start)` compared
lexicographically. -/
def segLe (a b : Segment) : Bool :=
  decide (a.chunk_start < b.chunk_start ∨ (a.chunk_start = b.chunk_start ∧
    (a.layer < b.layer ∨ (a.layer = b.layer ∧ a.rel_start ≤ b.rel_start))))

/-- Translation of `build_stretch_segments` (app_dash.py lines 94–125).  The `layers` and
`chunks` Python sets are modelled as first-occurrence deduplicated lists,
sorted at the end exactly as `sorted(set)` produces; `layers.add` runs for
every record and `chunks.add` for every visited chunk, emitted segment or
not. -/
def build_stretch_segments (records : List Record) : StretchData :=
  let segments := (records.map segsFor).flatten
  let layerSet := (records.map Record.layer).dedup
  let chunkSet := (records.map chunksFor).flatten.dedup
  ⟨sortedBy segLe segments,
   sortedBy (fun a b => decide (a ≤ b)) layerSet,
   sortedBy (fun a b => decide (a ≤ b)) chunkSet⟩

/-- One `if ... : continue` guard of `filter_records`: skip when the
filter list is non-empty, the tag is truthy, and the tag is not in the
list. -/
def skipAxis (tag : Option String) (flt : List String) : Bool :=
  !flt.isEmpty &&
    (match getTruthy tag with
     | some t => !(flt.contains t)
     | none => false)

/-- Translation of `filter_records` (app_dash.py lines 239–247). -/
def filter_records (records : List Record)
    (filter_bills filter_months : List String) : List Record :=
  records.filter fun r =>
    !skipAxis r.bill filter_bills && !skipAxis r.month filter_months

/-- Per-layer progress entry `{len, pct}`. -/
structure LayerStat where
  len : Int
  pct : ℚ
deriving DecidableEq, Repr

/-- A `per_layer_per_bill` row `{bill, layer, len, pct}`. -/
structure BillRow where
  bill : String
  layer : String
  len : Int
  pct : ℚ
deriving DecidableEq, Repr

/-- The dict returned by `compute_progress`. -/
structure Progress where
  route_extent : Int
  overall_len : Int
  overall_pct : ℚ
  per_layer : List (String × LayerStat)
  per_layer_per_bill : List BillRow
deriving DecidableEq, Repr

/-- Python `by_bill_layer[key] = by_bill_layer.get(key, 0) + d` on an
insertion-ordered association list. -/
def bumpKey (m : List (String × Int)) (k : String) (d : Int) :
    List (String × Int) :=
  match m with
  | [] => [(k, d)]
  | (k', v) :: rest =>
    if k' = k then (k', v + d) :: rest else (k', v) :: bumpKey rest k d

/-- The composite f-string key: bill, a bar, then layer. -/
def keyOf (bill layer : String) : String := bill ++ "|" ++ layer

/-- Python `key.split("|", 1)`: the part before the first `|` and the
rest.  The Python call site unpacks two components, so a key without a
separator would raise there; keys built by `keyOf` always contain one and
never reach the first arm. -/
def split1 (s : String) : String × String :=
  match s.data.dropWhile (fun c => decide (c ≠ '|')) with
  | [] => (s, "")
  | _ :: rest => (⟨s.data.takeWhile (fun c => decide (c ≠ '|'))⟩, ⟨rest⟩)

/-- Python `(len / route_extent * 100) if route_extent else 0`: truthiness
of the integer extent guards the division. -/
def pctOf (len extent : Int) : ℚ :=
  if extent ≠ 0 then (len : ℚ) / (extent : ℚ) * 100 else 0

/-- The Python sort key `(bill, layer)` compared lexicographically. -/
def billRowLe (a b : BillRow) : Bool :=
  decide (a.bill < b.bill ∨ (a.bill = b.bill ∧ a.layer ≤ b.layer))

/-- Translation of `compute_progress` (app_dash.py lines 250–283).  The
`by_layer_intervals` dict is built with the same membership-test-then-
append pattern as `setdefault`; `r.get("bill")` truthiness is `getTruthy`. -/
def compute_progress (records : List Record) (route_extent : Int) : Progress :=
  let by_layer_intervals := byLayer records
  let by_bill_layer := records.foldl (fun m r =>
    match getTruthy r.bill with
    | some b => bumpKey m (keyOf b r.layer) (r.«end» - r.start)
    | none => m) []
  let per_layer := by_layer_intervals.map fun p =>
    let total := ((merge_intervals p.2).map fun m => m.«end» - m.start).sum
    (p.1, LayerStat.mk total (pctOf total route_extent))
  let merged_all := merge_intervals (records.map fun r => Interval.mk r.start r.«end»)
  let overall_len := (merged_all.map fun m => m.«end» - m.start).sum
  let per_layer_per_bill := sortedBy billRowLe (by_bill_layer.map fun p =>
    let bl := split1 p.1
    BillRow.mk bl.1 bl.2 p.2 (pctOf p.2 route_extent))
  Progress.mk route_extent overall_len (pctOf overall_len route_extent)
    per_layer per_layer_per_bill

/-- The regular expression `^(\d+)\s*-\s*(\d+)$` matched deterministically
(its character classes are disjoint, so greedy scanning never backtracks);
digits and whitespace are modelled as their ASCII ranges. -/
def matchStretch (cs : List Char) : Option (List Char × List Char) :=
  let d1 := cs.takeWhile Char.isDigit
  let rest1 := cs.dropWhile Char.isDigit
  if d1.isEmpty then none
  else
    match rest1.dropWhile Char.isWhitespace with
    | '-' :: rest2 =>
      let rest3 := rest2.dropWhile Char.isWhitespace
      let d2 := rest3.takeWhile Char.isDigit
      let rest4 := rest3.dropWhile Char.isDigit
      if d2.isEmpty then none
      else if rest4.isEmpty then some (d1, d2)
      else none
    | _ => none

/-- Value of a digit string, as Python `int` computes it; the digits all
satisfy `'0' ≤ c`, so the natural subtraction is exact. -/
def digitsVal (ds : List Char) : Int :=
  (ds.foldl (fun n c => 10 * n + (c.toNat - '0'.toNat)) 0 : Nat)

/-- Python `str.strip()`: drop leading and trailing whitespace. -/
def stripChars (cs : List Char) : List Char :=
  ((cs.dropWhile Char.isWhitespace).reverse.dropWhile Char.isWhitespace).reverse

/-- Translation of `parse_stretch` (app_dash.py lines 41–48): empty strings are falsy and
rejected; the stripped input must match the regex; the parsed pair is
returned when `start <= end`, else `None`. -/
def parse_stretch (s : String) : Option (Int × Int) :=
  if s = "" then none
  else
    match matchStretch (stripChars s.data) with
    | none => none
    | some (d1, d2) =>
      let start := digitsVal d1
      let e := digitsVal d2
      if start ≤ e then some (start, e) else none

/-- The intervals of one layer, in record order: the contents of the
`by_layer` dict entry for that layer. -/
def intervalsOf (records : List Record) (layer : String) : List Interval :=
  (records.filter fun r => decide (r.layer = layer)).map fun r => ⟨r.start, r.«end»⟩

/-- The filtering axis as the spec's words state it: a record passes when
the tag is absent, or the filter list is empty, or the tag is a member of
the list.  Written from the claim, for comparison with `filter_records`. -/
def specPassAxis (tag : Option String) (flt : List String) : Bool :=
  tag.isNone || flt.isEmpty || flt.contains (tag.getD "")

/-- The composite `"bill|layer"` key a record contributes to
`by_bill_layer`, if its bill tag is truthy. -/
def keyOf? (r : Record) : Option String :=
  (getTruthy r.bill).map fun b => keyOf b r.layer

/-- Sum of the raw (unmerged) lengths of the records contributing to one
composite key. -/
def sumForKey (rs : List Record) (k : String) : Int :=
  ((rs.filter fun r => decide (keyOf? r = some k)).map
    fun r => r.«end» - r.start).sum

namespace StreamlitApp

/-!
Independent translation of the engine functions of `app_streamlit.py`
(lines 89–278), using the same data structures and the same models of the
Python builtins (`sortedBy` for the stable sort, association lists for
dicts) as the `app_dash.py` translation above.
-/

def CHUNK_SIZE : Int := 1000

/-- The accumulation loop of `merge_intervals` in app_streamlit.py. -/
def mergeAux (last : Interval) : List Interval → List Interval
  | [] => [last]
  | cur :: rest =>
    if cur.start ≤ last.«end» then
      mergeAux ⟨last.start, max last.«end» cur.«end»⟩ rest
    else
      last :: mergeAux cur rest

/-- Translation of `merge_intervals` (app_streamlit.py lines 123–134). -/
def merge_intervals (intervals : List Interval) : List Interval :=
  match sortedBy (fun a b => decide (a.start ≤ b.start)) intervals with
  | [] => []
  | x :: xs => mergeAux x xs

/-- The pairwise intersection loop of `find_overlaps_within_layer` in
app_streamlit.py. -/
def intervalPairsOverlaps : List Interval → List Interval
  | [] => []
  | a :: rest =>
    (rest.filterMap fun b =>
      let s := max a.start b.start
      let e := min a.«end» b.«end»
      if s < e then some ⟨s, e⟩ else none)
    ++ intervalPairsOverlaps rest

/-- Python `setdefault(layer, []).append(...)` in app_streamlit.py. -/
def setdefaultAppend (m : List (String × List Interval)) (k : String)
    (v : Interval) : List (String × List Interval) :=
  match m with
  | [] => [(k, [v])]
  | (k', vs) :: rest =>
    if k' = k then (k', vs ++ [v]) :: rest
    else (k', vs) :: setdefaultAppend rest k v

/-- The `by_layer` dict of app_streamlit.py. -/
def byLayer (records : List Record) : List (String × List Interval) :=
  records.foldl (fun m r => setdefaultAppend m r.layer ⟨r.start, r.«end»⟩) []

/-- Translation of `find_overlaps_within_layer` (app_streamlit.py lines 137–153). -/
def find_overlaps_within_layer (records : List Record) :
    List (String × List Entry) :=
  (byLayer records).map fun p =>
    (p.1, (merge_intervals (intervalPairsOverlaps p.2)).map fun m =>
      ⟨m.start, m.«end», m.«end» - m.start⟩)

/-- Python `min(r["start"] for r in records)` in app_streamlit.py. -/
def minStart? (records : List Record) : Option Int :=
  match records with
  | [] => none
  | r :: rs => some (rs.foldl (fun m x => min m x.start) r.start)

/-- Python `max(r["end"] for r in records)` in app_streamlit.py. -/
def maxEnd? (records : List Record) : Option Int :=
  match records with
  | [] => none
  | r :: rs => some (rs.foldl (fun m x => max m x.«end») r.«end»)

/-- The gap-walking loop of `find_gaps_per_layer` in app_streamlit.py. -/
def gapsAux (pos : Int) (segs : List Interval) (maxEnd : Int) : List Entry :=
  match segs with
  | [] => if pos < maxEnd then [⟨pos, maxEnd, maxEnd - pos⟩] else []
  | seg :: rest =>
    (if pos < seg.start then [⟨pos, seg.start, seg.start - pos⟩] else [])
    ++ gapsAux (max pos seg.«end») rest maxEnd

/-- Translation of `find_gaps_per_layer` (app_streamlit.py lines 156–174). -/
def find_gaps_per_layer (records : List Record) :
    Option (List (String × List Entry)) := do
  let min_start ← minStart? records
  let max_end ← maxEnd? records
  pure ((byLayer records).map fun p =>
    (p.1, gapsAux min_start (merge_intervals p.2) max_end))

/-- The `while c <= c_end` loop of app_streamlit.py. -/
def chunkSeq (c cEnd : Int) : Nat → List Int
  | 0 => []
  | fuel + 1 =>
    if c ≤ cEnd then c :: chunkSeq (c + CHUNK_SIZE) cEnd fuel else []

/-- Chunk starts visited for one record in app_streamlit.py. -/
def chunksFor (r : Record) : List Int :=
  let cStart := r.start.fdiv CHUNK_SIZE * CHUNK_SIZE
  let cEnd := r.«end».fdiv CHUNK_SIZE * CHUNK_SIZE
  chunkSeq cStart cEnd ((cEnd - cStart).toNat + 1)

/-- Segments one record contributes in app_streamlit.py. -/
def segsFor (r : Record) : List Segment :=
  (chunksFor r).filterMap fun c =>
    let segStart := max r.start c
    let segEnd := min r.«end» (c + CHUNK_SIZE)
    if segStart < segEnd then
      some ⟨c, toString c ++ "-" ++ toString (c + CHUNK_SIZE), r.layer,
            segStart - c, segEnd - c, segStart, segEnd⟩
    else none

/-- The sort key `(chunk_start, layer, rel_start)` of app_streamlit.py. -/
def segLe (a b : Segment) : Bool :=
  decide (a.chunk_start < b.chunk_start ∨ (a.chunk_start = b.chunk_start ∧
    (a.layer < b.layer ∨ (a.layer = b.layer ∧ a.rel_start ≤ b.rel_start))))

/-- Translation of `build_stretch_segments` (app_streamlit.py lines 89–120). -/
def build_stretch_segments (records : List Record) : StretchData :=
  let segments := (records.map segsFor).flatten
  let layerSet := (records.map Record.layer).dedup
  let chunkSet := (records.map chunksFor).flatten.dedup
  ⟨sortedBy segLe segments,
   sortedBy (fun a b => decide (a ≤ b)) layerSet,
   sortedBy (fun a b => decide (a ≤ b)) chunkSet⟩

/-- One `if ... : continue` guard of `filter_records` in app_streamlit.py. -/
def skipAxis (tag : Option String) (flt : List String) : Bool :=
  !flt.isEmpty &&
    (match getTruthy tag with
     | some t => !(flt.contains t)
     | none => false)

/-- Translation of `filter_records` (app_streamlit.py lines 234–242). -/
def filter_records (records : List Record)
    (filter_bills filter_months : List String) : List Record :=
  records.filter fun r =>
    !skipAxis r.bill filter_bills && !skipAxis r.month filter_months

/-- The `by_bill_layer` accumulation in app_streamlit.py. -/
def bumpKey (m : List (String × Int)) (k : String) (d : Int) :
    List (String × Int) :=
  match m with
  | [] => [(k, d)]
  | (k', v) :: rest =>
    if k' = k then (k', v + d) :: rest else (k', v) :: bumpKey rest k d

/-- The composite f-string key of app_streamlit.py: bill, a bar, then layer. -/
def keyOf (bill layer : String) : String := bill ++ "|" ++ layer

/-- Python `key.split("|", 1)` in app_streamlit.py. -/
def split1 (s : String) : String × String :=
  match s.data.dropWhile (fun c => decide (c ≠ '|')) with
  | [] => (s, "")
  | _ :: rest => (⟨s.data.takeWhile (fun c => decide (c ≠ '|'))⟩, ⟨rest⟩)

/-- Guarded percentage of app_streamlit.py. -/
def pctOf (len extent : Int) : ℚ :=
  if extent ≠ 0 then (len : ℚ) / (extent : ℚ) * 100 else 0

/-- The sort key `(bill, layer)` of app_streamlit.py. -/
def billRowLe (a b : BillRow) : Bool :=
  decide (a.bill < b.bill ∨ (a.bill = b.bill ∧ a.layer ≤ b.layer))

/-- Translation of `compute_progress` (app_streamlit.py lines 245–278). -/
def compute_progress (records : List Record) (route_extent : Int) : Progress :=
  let by_layer_intervals := byLayer records
  let by_bill_layer := records.foldl (fun m r =>
    match getTruthy r.bill with
    | some b => bumpKey m (keyOf b r.layer) (r.«end» - r.start)
    | none => m) []
  let per_layer := by_layer_intervals.map fun p =>
    let total := ((merge_intervals p.2).map fun m => m.«end» - m.start).sum
    (p.1, LayerStat.mk total (pctOf total route_extent))
  let merged_all := merge_intervals (records.map fun r => Interval.mk r.start r.«end»)
  let overall_len := (merged_all.map fun m => m.«end» - m.start).sum
  let per_layer_per_bill := sortedBy billRowLe (by_bill_layer.map fun p =>
    let bl := split1 p.1
    BillRow.mk bl.1 bl.2 p.2 (pctOf p.2 route_extent))
  Progress.mk route_extent overall_len (pctOf overall_len route_extent)
    per_layer per_layer_per_bill

end StreamlitApp

example : merge_intervals [⟨0, 10⟩, ⟨10, 20⟩] = [⟨0, 20⟩] := by decide
example : parse_stretch "5-5" = some (5, 5) := by decide
example : parse_stretch " 100 - 150 " = some (100, 150) := by decide
example : parse_stretch "7-3" = none := by decide
example :
    find_overlaps_within_layer
      [⟨"L", 0, 100, none, none⟩, ⟨"L", 50, 150, none, none⟩] =
      [("L", [⟨50, 100, 50⟩])] := by decide
example :
    find_gaps_per_layer
      [⟨"L", 100, 150, none, none⟩, ⟨"L", 600, 800, none, none⟩,
       ⟨"L", 1400, 1600, none, none⟩] =
      some [("L", [⟨150, 600, 450⟩, ⟨800, 1400, 600⟩])] := by decide

/-! ### Stable sort lemmas -/

theorem insertStable_perm (le : α → α → Bool) (a : α) (l : List α) :
    (insertStable le a l).Perm (a :: l) := by
  induction l with
  | nil => exact List.Perm.refl _
  | cons b bs ih =>
    simp only [insertStable]
    split
    · exact (ih.cons b).trans (List.Perm.swap a b bs)
    · exact List.Perm.refl _

theorem sortedBy_perm_aux (le : α → α → Bool) (l : List α) :
    ∀ acc : List α,
      (l.foldl (fun acc x => insertStable le x acc) acc).Perm (acc ++ l) := by
  induction l with
  | nil => intro acc; simp
  | cons x xs ih =>
    intro acc
    refine ((ih (insertStable le x acc)).trans ?_)
    have h1 : (insertStable le x acc ++ xs).Perm ((x :: acc) ++ xs) :=
      (insertStable_perm le x acc).append_right xs
    refine h1.trans ?_
    simpa using (@List.perm_middle _ x acc xs).symm

theorem sortedBy_perm (le : α → α → Bool) (l : List α) :
    (sortedBy le l).Perm l := by
  simpa using sortedBy_perm_aux le l []

theorem mem_sortedBy (le : α → α → Bool) (l : List α) (a : α) :
    a ∈ sortedBy le l ↔ a ∈ l :=
  (sortedBy_perm le l).mem_iff

theorem mem_insertStable (le : α → α → Bool) (a b : α) (l : List α) :
    b ∈ insertStable le a l ↔ b = a ∨ b ∈ l := by
  rw [(insertStable_perm le a l).mem_iff]; simp

theorem insertStable_pairwise (le : α → α → Bool)
    (htot : ∀ a b, le a b = true ∨ le b a = true)
    (htrans : ∀ a b c, le a b = true → le b c = true → le a c = true)
    (a : α) (l : List α) (h : l.Pairwise (fun x y => le x y = true)) :
    (insertStable le a l).Pairwise (fun x y => le x y = true) := by
  induction l with
  | nil => simp [insertStable]
  | cons b bs ih =>
    rcases List.pairwise_cons.mp h with ⟨hb, hbs⟩
    simp only [insertStable]
    split
    · rename_i hba
      refine List.pairwise_cons.mpr ⟨?_, ih hbs⟩
      intro y hy
      rcases (mem_insertStable le a y bs).mp hy with rfl | hy
      · exact hba
      · exact hb y hy
    · rename_i hba
      have hab : le a b = true := (htot a b).resolve_right (fun h' => hba h')
      refine List.pairwise_cons.mpr ⟨?_, h⟩
      intro y hy
      rcases List.mem_cons.mp hy with rfl | hy
      · exact hab
      · exact htrans a b y hab (hb y hy)

theorem sortedBy_pairwise (le : α → α → Bool)
    (htot : ∀ a b, le a b = true ∨ le b a = true)
    (htrans : ∀ a b c, le a b = true → le b c = true → le a c = true)
    (l : List α) :
    (sortedBy le l).Pairwise (fun x y => le x y = true) := by
  suffices h : ∀ acc : List α, acc.Pairwise (fun x y => le x y = true) →
      (l.foldl (fun acc x => insertStable le x acc) acc).Pairwise
        (fun x y => le x y = true) by
    exact h [] (List.Pairwise.nil)
  induction l with
  | nil => intro acc hacc; simpa using hacc
  | cons x xs ih =>
    intro acc hacc
    exact ih _ (insertStable_pairwise le htot htrans x acc hacc)

/-! ### Interval merge lemmas -/

theorem mergeAux_master (xs : List Interval) : ∀ x : Interval,
    (x :: xs).Pairwise (fun a b : Interval => a.start ≤ b.start) →
    (∃ e tl, mergeAux x xs = ⟨x.start, e⟩ :: tl ∧ x.«end» ≤ e) ∧
    (mergeAux x xs).Chain' (fun a b : Interval => a.«end» < b.start) ∧
    (mergeAux x xs).Pairwise (fun a b : Interval => a.start ≤ b.start) ∧
    (∀ y ∈ mergeAux x xs,
      (∃ z ∈ x :: xs, y.start = z.start) ∧ (∃ z ∈ x :: xs, y.«end» = z.«end»)) ∧
    ((∀ z ∈ x :: xs, z.start < z.«end») →
      ∀ y ∈ mergeAux x xs, y.start < y.«end») := by
  induction xs with
  | nil =>
    intro x _
    refine ⟨⟨x.«end», [], rfl, le_refl _⟩, ?_, ?_, ?_, ?_⟩
    · simp [mergeAux]
    · simp [mergeAux]
    · intro y hy
      simp only [mergeAux, List.mem_singleton] at hy
      subst hy
      exact ⟨⟨y, by simp, rfl⟩, ⟨y, by simp, rfl⟩⟩
    · intro hv y hy
      simp only [mergeAux, List.mem_singleton] at hy
      subst hy
      exact hv y (by simp)
  | cons cur rest ih =>
    intro x hp
    rcases List.pairwise_cons.mp hp with ⟨hx, hp'⟩
    rcases List.pairwise_cons.mp hp' with ⟨hcur, hrest⟩
    by_cases hle : cur.start ≤ x.«end»
    · -- extension branch
      have hp2 : (Interval.mk x.start (max x.«end» cur.«end») :: rest).Pairwise
          (fun a b : Interval => a.start ≤ b.start) :=
        List.pairwise_cons.mpr ⟨fun y hy => hx y (by simp [hy]), hrest⟩
      rcases ih _ hp2 with ⟨⟨e, tl, heq, hee⟩, hchain, hpw, horig, hval⟩
      have hunfold : mergeAux x (cur :: rest) =
          mergeAux ⟨x.start, max x.«end» cur.«end»⟩ rest := by
        simp [mergeAux, hle]
      refine ⟨⟨e, tl, by rw [hunfold]; exact heq,
              le_trans (le_max_left _ _) hee⟩,
              by rw [hunfold]; exact hchain,
              by rw [hunfold]; exact hpw, ?_, ?_⟩
      · intro y hy
        rw [hunfold] at hy
        rcases horig y hy with ⟨⟨z, hz, hzs⟩, ⟨w, hw, hws⟩⟩
        constructor
        · rcases List.mem_cons.mp hz with rfl | hz
          · exact ⟨x, by simp, hzs⟩
          · exact ⟨z, by simp [hz], hzs⟩
        · rcases List.mem_cons.mp hw with rfl | hw
          · rcases max_cases x.«end» cur.«end» with ⟨hm, _⟩ | ⟨hm, _⟩
            · exact ⟨x, by simp, by simpa [hm] using hws⟩
            · exact ⟨cur, by simp, by simpa [hm] using hws⟩
          · exact ⟨w, by simp [hw], hws⟩
      · intro hval0 y hy
        rw [hunfold] at hy
        refine hval ?_ y hy
        intro z hz
        rcases List.mem_cons.mp hz with rfl | hz
        · exact lt_of_lt_of_le (hval0 x (by simp)) (le_max_left _ _)
        · exact hval0 z (by simp [hz])
    · -- append branch
      rcases ih cur hp' with ⟨⟨e, tl, heq, hee⟩, hchain, hpw, horig, hval⟩
      have hunfold : mergeAux x (cur :: rest) = x :: mergeAux cur rest := by
        simp [mergeAux, hle]
      have hxe : x.«end» < cur.start := lt_of_not_ge hle
      refine ⟨⟨x.«end», mergeAux cur rest, by rw [hunfold], le_refl _⟩, ?_, ?_, ?_, ?_⟩
      · rw [hunfold]
        refine List.chain'_cons'.mpr ⟨?_, hchain⟩
        intro b hb
        rw [heq] at hb
        simp only [List.head?_cons, Option.mem_def, Option.some.injEq] at hb
        subst hb
        exact hxe
      · rw [hunfold]
        refine List.pairwise_cons.mpr ⟨?_, hpw⟩
        intro y hy
        rcases (horig y hy).1 with ⟨z, hz, hzs⟩
        rw [hzs]
        exact hx z hz
      · intro y hy
        rw [hunfold] at hy
        rcases List.mem_cons.mp hy with rfl | hy
        · exact ⟨⟨y, by simp, rfl⟩, ⟨y, by simp, rfl⟩⟩
        · rcases horig y hy with ⟨⟨z, hz, hzs⟩, ⟨w, hw, hws⟩⟩
          exact ⟨⟨z, by simp [List.mem_cons.mp hz], hzs⟩,
                 ⟨w, by simp [List.mem_cons.mp hw], hws⟩⟩
      · intro hval0 y hy
        rw [hunfold] at hy
        rcases List.mem_cons.mp hy with rfl | hy
        · exact hval0 y (by simp)
        · exact hval (fun z hz => hval0 z (by simp [List.mem_cons.mp hz])) y hy

theorem mergeAux_cov (xs : List Interval) : ∀ x : Interval,
    (x :: xs).Pairwise (fun a b : Interval => a.start ≤ b.start) →
    ∀ t : Int,
      (∃ i ∈ mergeAux x xs, i.start ≤ t ∧ t < i.«end») ↔
      (∃ i ∈ x :: xs, i.start ≤ t ∧ t < i.«end») := by
  induction xs with
  | nil => intro x _ t; simp [mergeAux]
  | cons cur rest ih =>
    intro x hp t
    rcases List.pairwise_cons.mp hp with ⟨hx, hp'⟩
    rcases List.pairwise_cons.mp hp' with ⟨hcur, hrest⟩
    by_cases hle : cur.start ≤ x.«end»
    · have hp2 : (Interval.mk x.start (max x.«end» cur.«end») :: rest).Pairwise
          (fun a b : Interval => a.start ≤ b.start) :=
        List.pairwise_cons.mpr ⟨fun y hy => hx y (by simp [hy]), hrest⟩
      have hunfold : mergeAux x (cur :: rest) =
          mergeAux ⟨x.start, max x.«end» cur.«end»⟩ rest := by
        simp [mergeAux, hle]
      rw [hunfold, ih _ hp2]
      constructor
      · rintro ⟨i, hi, his, hit⟩
        rcases List.mem_cons.mp hi with heq | hi
        · subst heq
          rcases lt_or_le t x.«end» with h | h
          · exact ⟨x, by simp, his, h⟩
          · refine ⟨cur, by simp, le_trans hle h, ?_⟩
            rcases lt_max_iff.mp hit with h' | h'
            · exact absurd h' (not_lt.mpr h)
            · exact h'
        · exact ⟨i, by simp [hi], his, hit⟩
      · rintro ⟨i, hi, his, hit⟩
        rcases List.mem_cons.mp hi with heq | hi
        · exact ⟨⟨x.start, max x.«end» cur.«end»⟩, by simp,
            heq ▸ his, lt_of_lt_of_le (heq ▸ hit) (le_max_left _ _)⟩
        rcases List.mem_cons.mp hi with heq | hi
        · exact ⟨⟨x.start, max x.«end» cur.«end»⟩, by simp,
            le_trans (hx cur (by simp)) (heq ▸ his),
            lt_of_lt_of_le (heq ▸ hit) (le_max_right _ _)⟩
        · exact ⟨i, by simp [hi], his, hit⟩
    · have hunfold : mergeAux x (cur :: rest) = x :: mergeAux cur rest := by
        simp [mergeAux, hle]
      rw [hunfold]
      constructor
      · rintro ⟨i, hi, his, hit⟩
        rcases List.mem_cons.mp hi with rfl | hi
        · exact ⟨i, by simp, his, hit⟩
        · rcases (ih cur hp' t).mp ⟨i, hi, his, hit⟩ with ⟨j, hj, hjs, hjt⟩
          exact ⟨j, by simp [List.mem_cons.mp hj], hjs, hjt⟩
      · rintro ⟨i, hi, his, hit⟩
        rcases List.mem_cons.mp hi with rfl | hi
        · exact ⟨i, by simp, his, hit⟩
        · rcases (ih cur hp' t).mpr ⟨i, hi, his, hit⟩ with ⟨j, hj, hjs, hjt⟩
          exact ⟨j, by simp [hj], hjs, hjt⟩

theorem sortedStart_pairwise (l : List Interval) :
    (sortedBy (fun a b : Interval => decide (a.start ≤ b.start)) l).Pairwise
      (fun a b : Interval => a.start ≤ b.start) := by
  have h := sortedBy_pairwise (fun a b : Interval => decide (a.start ≤ b.start))
    (fun a b => by
      by_cases h : a.start ≤ b.start
      · left; simpa using h
      · right; simpa using le_of_not_le h)
    (fun a b c hab hbc => by
      simp only [decide_eq_true_eq] at hab hbc ⊢
      exact le_trans hab hbc) l
  exact h.imp (fun hab => by simpa using hab)

theorem merge_intervals_sorted (l : List Interval) :
    (merge_intervals l).Pairwise (fun a b : Interval => a.start ≤ b.start) := by
  unfold merge_intervals
  rcases hs : sortedBy (fun a b : Interval => decide (a.start ≤ b.start)) l with
    _ | ⟨x, xs⟩
  · simp
  · have hp := sortedStart_pairwise l
    rw [hs] at hp
    exact (mergeAux_master xs x hp).2.2.1

theorem merge_intervals_chain (l : List Interval) :
    (merge_intervals l).Chain' (fun a b : Interval => a.«end» < b.start) := by
  unfold merge_intervals
  rcases hs : sortedBy (fun a b : Interval => decide (a.start ≤ b.start)) l with
    _ | ⟨x, xs⟩
  · simp
  · have hp := sortedStart_pairwise l
    rw [hs] at hp
    exact (mergeAux_master xs x hp).2.1

theorem merge_intervals_origin (l : List Interval) :
    ∀ y ∈ merge_intervals l,
      (∃ z ∈ l, y.start = z.start) ∧ (∃ z ∈ l, y.«end» = z.«end») := by
  unfold merge_intervals
  rcases hs : sortedBy (fun a b : Interval => decide (a.start ≤ b.start)) l with
    _ | ⟨x, xs⟩
  · simp
  · have hp := sortedStart_pairwise l
    rw [hs] at hp
    intro y hy
    have hmem : ∀ z : Interval, z ∈ x :: xs → z ∈ l := by
      intro z hz
      have := (mem_sortedBy (fun a b : Interval => decide (a.start ≤ b.start)) l z).mp
      rw [hs] at this
      exact this hz
    rcases (mergeAux_master xs x hp).2.2.2.1 y hy with ⟨⟨z, hz, hzs⟩, ⟨w, hw, hws⟩⟩
    exact ⟨⟨z, hmem z hz, hzs⟩, ⟨w, hmem w hw, hws⟩⟩

theorem merge_intervals_valid (l : List Interval)
    (hv : ∀ z ∈ l, z.start < z.«end») :
    ∀ y ∈ merge_intervals l, y.start < y.«end» := by
  unfold merge_intervals
  rcases hs : sortedBy (fun a b : Interval => decide (a.start ≤ b.start)) l with
    _ | ⟨x, xs⟩
  · simp
  · have hp := sortedStart_pairwise l
    rw [hs] at hp
    refine (mergeAux_master xs x hp).2.2.2.2 ?_
    intro z hz
    refine hv z ?_
    have := (mem_sortedBy (fun a b : Interval => decide (a.start ≤ b.start)) l z).mp
    rw [hs] at this
    exact this hz

theorem merge_intervals_cov (l : List Interval) (t : Int) :
    (∃ i ∈ merge_intervals l, i.start ≤ t ∧ t < i.«end») ↔
    (∃ i ∈ l, i.start ≤ t ∧ t < i.«end») := by
  unfold merge_intervals
  rcases hs : sortedBy (fun a b : Interval => decide (a.start ≤ b.start)) l with
    _ | ⟨x, xs⟩
  · have hnil : l = [] := by
      have hperm := sortedBy_perm (fun a b : Interval => decide (a.start ≤ b.start)) l
      rw [hs] at hperm
      exact hperm.symm.eq_nil
    simp [hnil]
  · have hp := sortedStart_pairwise l
    rw [hs] at hp
    rw [mergeAux_cov xs x hp t]
    have hperm := sortedBy_perm (fun a b : Interval => decide (a.start ≤ b.start)) l
    rw [hs] at hperm
    constructor
    · rintro ⟨i, hi, hp1, hp2⟩
      exact ⟨i, hperm.mem_iff.mp hi, hp1, hp2⟩
    · rintro ⟨i, hi, hp1, hp2⟩
      exact ⟨i, hperm.mem_iff.mpr hi, hp1, hp2⟩

/-- Adjacent strict separation plus non-degeneracy gives full pairwise
separation. -/
theorem chain_sep_pairwise (l : List Interval)
    (hc : l.Chain' (fun a b : Interval => a.«end» < b.start))
    (hv : ∀ a ∈ l, a.start < a.«end») :
    l.Pairwise (fun a b : Interval => a.«end» < b.start) := by
  induction l with
  | nil => simp
  | cons a l ih =>
    rcases List.chain'_cons'.mp hc with ⟨hhead, htail⟩
    have hpl : l.Pairwise (fun a b : Interval => a.«end» < b.start) :=
      ih htail (fun z hz => hv z (by simp [hz]))
    refine List.pairwise_cons.mpr ⟨?_, hpl⟩
    intro b hb
    rcases l with _ | ⟨c, l'⟩
    · simp at hb
    · have hac : a.«end» < c.start := hhead c rfl
      rcases List.mem_cons.mp hb with rfl | hb'
      · exact hac
      · have hcb : c.«end» < b.start :=
          (List.pairwise_cons.mp hpl).1 b hb'
        have hcv : c.start < c.«end» := hv c (by simp)
        exact lt_trans (lt_trans hac hcv) hcb

/-! ### Gap walk lemmas -/

theorem gapsAux_len (segs : List Interval) : ∀ (pos maxEnd : Int),
    ∀ g ∈ gapsAux pos segs maxEnd, g.len = g.«end» - g.start := by
  induction segs with
  | nil =>
    intro pos maxEnd g hg
    simp only [gapsAux] at hg
    split at hg
    · simp only [List.mem_singleton] at hg
      subst hg; rfl
    · simp at hg
  | cons seg rest ih =>
    intro pos maxEnd g hg
    simp only [gapsAux, List.mem_append] at hg
    rcases hg with hg | hg
    · split at hg
      · simp only [List.mem_singleton] at hg
        subst hg; rfl
      · simp at hg
    · exact ih _ _ g hg

theorem gapsAux_tiling (segs : List Interval) : ∀ (pos maxEnd : Int),
    segs.Pairwise (fun a b : Interval => a.«end» < b.start) →
    (∀ s ∈ segs, pos ≤ s.start) →
    (∀ s ∈ segs, s.start < s.«end») →
    (∀ s ∈ segs, s.«end» ≤ maxEnd) →
    ∀ t : Int,
      (((∃ i ∈ segs, i.start ≤ t ∧ t < i.«end») ∨
        (∃ g ∈ gapsAux pos segs maxEnd, g.start ≤ t ∧ t < g.«end»)) ↔
       (pos ≤ t ∧ t < maxEnd)) ∧
      ¬((∃ i ∈ segs, i.start ≤ t ∧ t < i.«end») ∧
        (∃ g ∈ gapsAux pos segs maxEnd, g.start ≤ t ∧ t < g.«end»)) := by
  induction segs with
  | nil =>
    intro pos maxEnd _ _ _ _ t
    constructor
    · simp only [gapsAux, List.not_mem_nil, false_and, exists_false, false_or]
      by_cases h : pos < maxEnd
      · simp [h]
      · simp only [h, if_false]
        simp only [List.not_mem_nil, false_and, exists_false, false_iff]
        intro ⟨h1, h2⟩
        exact h (lt_of_le_of_lt h1 h2)
    · rintro ⟨⟨i, hi, _⟩, _⟩
      simp at hi
  | cons seg rest ih =>
    intro pos maxEnd hpw hpos hv hme t
    rcases List.pairwise_cons.mp hpw with ⟨hsep, hpw'⟩
    have hposseg : pos ≤ seg.start := hpos seg (by simp)
    have hvseg : seg.start < seg.«end» := hv seg (by simp)
    have hmax : max pos seg.«end» = seg.«end» :=
      max_eq_right (le_trans hposseg hvseg.le)
    have hih := ih seg.«end» maxEnd hpw'
      (fun s hs => (hsep s hs).le)
      (fun s hs => hv s (by simp [hs]))
      (fun s hs => hme s (by simp [hs])) t
    have hunfold : gapsAux pos (seg :: rest) maxEnd =
        (if pos < seg.start then [⟨pos, seg.start, seg.start - pos⟩] else [])
          ++ gapsAux seg.«end» rest maxEnd := by
      simp [gapsAux, hmax]
    rw [hunfold]
    have hcovcons : (∃ i ∈ seg :: rest, i.start ≤ t ∧ t < i.«end») ↔
        ((seg.start ≤ t ∧ t < seg.«end») ∨ (∃ i ∈ rest, i.start ≤ t ∧ t < i.«end»)) := by
      constructor
      · rintro ⟨i, hi, h1, h2⟩
        rcases List.mem_cons.mp hi with rfl | hi
        · exact Or.inl ⟨h1, h2⟩
        · exact Or.inr ⟨i, hi, h1, h2⟩
      · rintro (⟨h1, h2⟩ | ⟨i, hi, h1, h2⟩)
        · exact ⟨seg, by simp, h1, h2⟩
        · exact ⟨i, by simp [hi], h1, h2⟩
    have hgapapp : (∃ g ∈ (if pos < seg.start then
          [(⟨pos, seg.start, seg.start - pos⟩ : Entry)] else [])
          ++ gapsAux seg.«end» rest maxEnd, g.start ≤ t ∧ t < g.«end») ↔
        ((pos ≤ t ∧ t < seg.start) ∨
          (∃ g ∈ gapsAux seg.«end» rest maxEnd, g.start ≤ t ∧ t < g.«end»)) := by
      constructor
      · rintro ⟨g, hg, h1, h2⟩
        rcases List.mem_append.mp hg with hg | hg
        · split at hg
          · simp only [List.mem_singleton] at hg
            subst hg
            exact Or.inl ⟨h1, h2⟩
          · simp at hg
        · exact Or.inr ⟨g, hg, h1, h2⟩
      · rintro (⟨h1, h2⟩ | ⟨g, hg, h1, h2⟩)
        · have hps : pos < seg.start := lt_of_le_of_lt h1 h2
          exact ⟨⟨pos, seg.start, seg.start - pos⟩,
            by simp [hps], h1, h2⟩
        · exact ⟨g, List.mem_append.mpr (Or.inr hg), h1, h2⟩
    constructor
    · rw [hcovcons, hgapapp]
      constructor
      · rintro ((⟨h1, h2⟩ | hrest) | (⟨h1, h2⟩ | hgap))
        · exact ⟨le_trans hposseg h1, lt_of_lt_of_le h2 (hme seg (by simp))⟩
        · have := (hih.1).mp (Or.inl hrest)
          exact ⟨le_trans (le_trans hposseg hvseg.le) this.1, this.2⟩
        · exact ⟨h1, lt_of_lt_of_le h2 (le_trans hvseg.le (hme seg (by simp)))⟩
        · have := (hih.1).mp (Or.inr hgap)
          exact ⟨le_trans (le_trans hposseg hvseg.le) this.1, this.2⟩
      · rintro ⟨h1, h2⟩
        rcases lt_or_le t seg.start with hts | hts
        · exact Or.inr (Or.inl ⟨h1, hts⟩)
        rcases lt_or_le t seg.«end» with hte | hte
        · exact Or.inl (Or.inl ⟨hts, hte⟩)
        · rcases (hih.1).mpr ⟨hte, h2⟩ with h | h
          · exact Or.inl (Or.inr h)
          · exact Or.inr (Or.inr h)
    · rw [hcovcons, hgapapp]
      rintro ⟨hcov, hgap⟩
      have hgapge : (∃ g ∈ gapsAux seg.«end» rest maxEnd,
          g.start ≤ t ∧ t < g.«end») → seg.«end» ≤ t := by
        intro h
        exact ((hih.1).mp (Or.inr h)).1
      have hrestge : (∃ i ∈ rest, i.start ≤ t ∧ t < i.«end») → seg.«end» ≤ t := by
        rintro ⟨i, hi, h1, _⟩
        exact le_trans (hsep i hi).le h1
      rcases hcov with ⟨h1, h2⟩ | hrest
      · rcases hgap with ⟨h3, h4⟩ | hgap
        · exact absurd h1 (not_le.mpr h4)
        · exact absurd h2 (not_lt.mpr (hgapge hgap))
      · rcases hgap with ⟨h3, h4⟩ | hgap
        · exact absurd (hrestge hrest)
            (not_le.mpr (lt_trans h4 hvseg))
        · exact (hih.2) ⟨hrest, hgap⟩

/-! ### Per-layer association list lemmas -/

theorem lookup_setdefault_eq (m : List (String × List Interval)) (k : String)
    (v : Interval) :
    List.lookup k (setdefaultAppend m k v) =
      some ((List.lookup k m).getD [] ++ [v]) := by
  induction m with
  | nil => simp [setdefaultAppend]
  | cons p rest ih =>
    obtain ⟨k', vs⟩ := p
    simp only [setdefaultAppend]
    by_cases h : k' = k
    · subst h; simp
    · simp only [if_neg h, List.lookup_cons]
      have hbeq : (k == k') = false := by
        simp [beq_iff_eq]; exact Ne.symm h
      simp [hbeq, ih]

theorem lookup_setdefault_ne (m : List (String × List Interval)) (k k' : String)
    (v : Interval) (h : k' ≠ k) :
    List.lookup k' (setdefaultAppend m k v) = List.lookup k' m := by
  induction m with
  | nil => simp [setdefaultAppend, h]
  | cons p rest ih =>
    obtain ⟨k'', vs⟩ := p
    simp only [setdefaultAppend]
    by_cases heq : k'' = k
    · subst heq
      have hbeq : (k' == k'') = false := by simp [beq_iff_eq]; exact h
      simp [List.lookup, hbeq]
    · simp only [if_neg heq, List.lookup_cons]
      by_cases heq' : k' = k''
      · subst heq'; simp
      · have hbeq : (k' == k'') = false := by simp [beq_iff_eq]; exact heq'
        simp [hbeq, ih]

theorem byLayer_fold (rs : List Record) :
    ∀ (m : List (String × List Interval)) (k : String),
      List.lookup k
          (rs.foldl (fun m r => setdefaultAppend m r.layer ⟨r.start, r.«end»⟩) m) =
        match List.lookup k m with
        | some vs => some (vs ++ intervalsOf rs k)
        | none =>
          if rs.any (fun r => decide (r.layer = k)) then some (intervalsOf rs k)
          else none := by
  induction rs with
  | nil =>
    intro m k
    rcases hlm : List.lookup k m with _ | vs <;> simp [intervalsOf, hlm]
  | cons r rs' ih =>
    intro m k
    rw [List.foldl_cons, ih (setdefaultAppend m r.layer ⟨r.start, r.«end»⟩) k]
    by_cases hk : r.layer = k
    · subst hk
      rw [lookup_setdefault_eq]
      have hint : intervalsOf (r :: rs') r.layer =
          ⟨r.start, r.«end»⟩ :: intervalsOf rs' r.layer := by
        simp [intervalsOf]
      rcases hlm : List.lookup r.layer m with _ | vs <;> simp [hint, hlm]
    · rw [lookup_setdefault_ne m r.layer k _ (fun h => hk h.symm)]
      have hint : intervalsOf (r :: rs') k = intervalsOf rs' k := by
        simp [intervalsOf, hk]
      have hany : (r :: rs').any (fun r => decide (r.layer = k)) =
          rs'.any (fun r => decide (r.layer = k)) := by
        simp [hk]
      rw [hint, hany]

theorem byLayer_lookup (records : List Record) (k : String)
    (h : ∃ r ∈ records, r.layer = k) :
    List.lookup k (byLayer records) = some (intervalsOf records k) := by
  have hfold := byLayer_fold records [] k
  rw [byLayer]
  rw [hfold]
  have hany : records.any (fun r => decide (r.layer = k)) = true := by
    rcases h with ⟨r, hr, hrk⟩
    exact List.any_eq_true.mpr ⟨r, hr, by simp [hrk]⟩
  simp [hany]

theorem lookup_mapSnd {α β : Type} (l : List (String × α)) (g : α → β)
    (k : String) :
    List.lookup k (l.map (fun p => (p.1, g p.2))) = (List.lookup k l).map g := by
  induction l with
  | nil => simp
  | cons p rest ih =>
    obtain ⟨k', v⟩ := p
    by_cases h : k = k'
    · subst h; simp
    · have hbeq : (k == k') = false := by simp [beq_iff_eq]; exact h
      simp [List.lookup, hbeq, ih]

/-! ### Bounds of the route-wide extent -/

theorem foldl_min_bounds (l : List Record) : ∀ a : Int,
    l.foldl (fun m x => min m x.start) a ≤ a ∧
    ∀ r ∈ l, l.foldl (fun m x => min m x.start) a ≤ r.start := by
  induction l with
  | nil => intro a; simp
  | cons r l' ih =>
    intro a
    rcases ih (min a r.start) with ⟨h1, h2⟩
    refine ⟨le_trans h1 (min_le_left _ _), ?_⟩
    intro r' hr'
    rcases List.mem_cons.mp hr' with rfl | hr'
    · exact le_trans h1 (min_le_right _ _)
    · exact h2 r' hr'

theorem foldl_max_bounds (l : List Record) : ∀ a : Int,
    a ≤ l.foldl (fun m x => max m x.«end») a ∧
    ∀ r ∈ l, r.«end» ≤ l.foldl (fun m x => max m x.«end») a := by
  induction l with
  | nil => intro a; simp
  | cons r l' ih =>
    intro a
    rcases ih (max a r.«end») with ⟨h1, h2⟩
    refine ⟨le_trans (le_max_left _ _) h1, ?_⟩
    intro r' hr'
    rcases List.mem_cons.mp hr' with rfl | hr'
    · exact le_trans (le_max_right _ _) h1
    · exact h2 r' hr'

theorem minStart?_le (records : List Record) (ms : Int)
    (h : minStart? records = some ms) : ∀ r ∈ records, ms ≤ r.start := by
  match records, h with
  | r :: rs, h =>
    simp only [minStart?, Option.some.injEq] at h
    subst h
    intro r' hr'
    rcases List.mem_cons.mp hr' with rfl | hr'
    · exact (foldl_min_bounds rs r'.start).1
    · exact (foldl_min_bounds rs r.start).2 r' hr'

theorem maxEnd?_ge (records : List Record) (me : Int)
    (h : maxEnd? records = some me) : ∀ r ∈ records, r.«end» ≤ me := by
  match records, h with
  | r :: rs, h =>
    simp only [maxEnd?, Option.some.injEq] at h
    subst h
    intro r' hr'
    rcases List.mem_cons.mp hr' with rfl | hr'
    · exact (foldl_max_bounds rs r'.«end»).1
    · exact (foldl_max_bounds rs r.«end»).2 r' hr'

/-! ### The two front ends translate to equal functions -/

theorem sl_CHUNK_SIZE_eq : StreamlitApp.CHUNK_SIZE = CHUNK_SIZE := rfl

theorem sl_mergeAux_eq : StreamlitApp.mergeAux = mergeAux := by
  funext last l
  induction l generalizing last with
  | nil => rfl
  | cons cur rest ih =>
    simp only [StreamlitApp.mergeAux, mergeAux]
    by_cases h : cur.start ≤ last.«end» <;> simp [h, ih]

theorem sl_merge_eq : StreamlitApp.merge_intervals = merge_intervals := by
  funext l
  simp only [StreamlitApp.merge_intervals, merge_intervals, sl_mergeAux_eq]

theorem sl_pairs_eq :
    StreamlitApp.intervalPairsOverlaps = intervalPairsOverlaps := by
  funext l
  induction l with
  | nil => rfl
  | cons a rest ih =>
    simp only [StreamlitApp.intervalPairsOverlaps, intervalPairsOverlaps, ih]

theorem sl_setdefault_eq :
    StreamlitApp.setdefaultAppend = setdefaultAppend := by
  funext m k v
  induction m with
  | nil => rfl
  | cons p rest ih =>
    obtain ⟨k', vs⟩ := p
    simp only [StreamlitApp.setdefaultAppend, setdefaultAppend, ih]

theorem sl_byLayer_eq : StreamlitApp.byLayer = byLayer := by
  funext records
  simp only [StreamlitApp.byLayer, byLayer, sl_setdefault_eq]

theorem sl_overlaps_eq :
    StreamlitApp.find_overlaps_within_layer = find_overlaps_within_layer := by
  funext records
  simp only [StreamlitApp.find_overlaps_within_layer, find_overlaps_within_layer,
    sl_byLayer_eq, sl_merge_eq, sl_pairs_eq]

theorem sl_minStart_eq : StreamlitApp.minStart? = minStart? := by
  funext records
  cases records <;> rfl

theorem sl_maxEnd_eq : StreamlitApp.maxEnd? = maxEnd? := by
  funext records
  cases records <;> rfl

theorem sl_gapsAux_eq : StreamlitApp.gapsAux = gapsAux := by
  funext pos segs maxEnd
  induction segs generalizing pos with
  | nil => rfl
  | cons seg rest ih =>
    simp only [StreamlitApp.gapsAux, gapsAux, ih]

theorem sl_gaps_eq : StreamlitApp.find_gaps_per_layer = find_gaps_per_layer := by
  funext records
  simp only [StreamlitApp.find_gaps_per_layer, find_gaps_per_layer,
    sl_byLayer_eq, sl_merge_eq, sl_gapsAux_eq, sl_minStart_eq, sl_maxEnd_eq]

theorem sl_chunkSeq_eq : StreamlitApp.chunkSeq = chunkSeq := by
  funext c cEnd fuel
  induction fuel generalizing c with
  | zero => rfl
  | succ fuel ih =>
    simp only [StreamlitApp.chunkSeq, chunkSeq, sl_CHUNK_SIZE_eq, ih]

theorem sl_chunksFor_eq : StreamlitApp.chunksFor = chunksFor := by
  funext r
  simp only [StreamlitApp.chunksFor, chunksFor, sl_CHUNK_SIZE_eq, sl_chunkSeq_eq]

theorem sl_segsFor_eq : StreamlitApp.segsFor = segsFor := by
  funext r
  simp only [StreamlitApp.segsFor, segsFor, sl_CHUNK_SIZE_eq, sl_chunksFor_eq]

theorem sl_segLe_eq : StreamlitApp.segLe = segLe := rfl

theorem sl_build_eq :
    StreamlitApp.build_stretch_segments = build_stretch_segments := by
  funext records
  simp only [StreamlitApp.build_stretch_segments, build_stretch_segments,
    sl_segsFor_eq, sl_chunksFor_eq, sl_segLe_eq]

theorem sl_skipAxis_eq : StreamlitApp.skipAxis = skipAxis := rfl

theorem sl_filter_eq : StreamlitApp.filter_records = filter_records := by
  funext records fb fm
  simp only [StreamlitApp.filter_records, filter_records, sl_skipAxis_eq]

theorem sl_bumpKey_eq : StreamlitApp.bumpKey = bumpKey := by
  funext m k d
  induction m with
  | nil => rfl
  | cons p rest ih =>
    obtain ⟨k', v⟩ := p
    simp only [StreamlitApp.bumpKey, bumpKey, ih]

theorem sl_keyOf_eq : StreamlitApp.keyOf = keyOf := rfl

theorem sl_split1_eq : StreamlitApp.split1 = split1 := rfl

theorem sl_pctOf_eq : StreamlitApp.pctOf = pctOf := rfl

theorem sl_billRowLe_eq : StreamlitApp.billRowLe = billRowLe := rfl

theorem sl_compute_eq : StreamlitApp.compute_progress = compute_progress := by
  funext records e
  simp only [StreamlitApp.compute_progress, compute_progress, sl_byLayer_eq,
    sl_merge_eq, sl_bumpKey_eq, sl_keyOf_eq, sl_split1_eq, sl_pctOf_eq,
    sl_billRowLe_eq]

/-! ### Sorting commutes with key-preserving projections -/

theorem insertStable_map {α β : Type} (f : α → β) (leA : α → α → Bool)
    (leB : β → β → Bool) (h : ∀ a b, leA a b = leB (f a) (f b)) (a : α)
    (l : List α) :
    (insertStable leA a l).map f = insertStable leB (f a) (l.map f) := by
  induction l with
  | nil => rfl
  | cons b bs ih =>
    simp only [insertStable, List.map_cons]
    rw [← h b a]
    by_cases hba : leA b a = true
    · simp [hba, ih]
    · simp only [Bool.not_eq_true] at hba
      simp [hba]

theorem sortedBy_map {α β : Type} (f : α → β) (leA : α → α → Bool)
    (leB : β → β → Bool) (h : ∀ a b, leA a b = leB (f a) (f b)) (l : List α) :
    (sortedBy leA l).map f = sortedBy leB (l.map f) := by
  suffices haux : ∀ acc : List α,
      (l.foldl (fun acc x => insertStable leA x acc) acc).map f =
        (l.map f).foldl (fun acc x => insertStable leB x acc) (acc.map f) by
    exact haux []
  induction l with
  | nil => intro acc; simp
  | cons x xs ih =>
    intro acc
    simp only [List.foldl_cons, List.map_cons]
    rw [ih (insertStable leA x acc), insertStable_map f leA leB h]

/-! ### The filter guard versus the spec's pass predicate -/

theorem skip_vs_pass (tag : Option String) (flt : List String)
    (h : tag ≠ some "") : (!skipAxis tag flt) = specPassAxis tag flt := by
  cases tag with
  | none =>
    simp [skipAxis, specPassAxis, getTruthy]
  | some s =>
    have hs : ¬(s = "") := fun h' => h (by rw [h'])
    simp only [skipAxis, specPassAxis, getTruthy, if_neg hs, Option.isNone_some,
      Option.getD_some, Bool.false_or]
    cases hemp : flt.isEmpty <;> cases hcont : flt.contains s <;> simp [hemp, hcont]

/-! ### Membership in the pairwise-intersection list -/

theorem mem_intervalPairsOverlaps (l : List Interval) (x : Interval) :
    x ∈ intervalPairsOverlaps l ↔
      ∃ a b : Interval, [a, b].Sublist l ∧
        x = ⟨max a.start b.start, min a.«end» b.«end»⟩ ∧ x.start < x.«end» := by
  induction l with
  | nil =>
    simp only [intervalPairsOverlaps, List.not_mem_nil, false_iff]
    rintro ⟨a, b, hs, _, _⟩
    simpa using hs.length_le
  | cons c rest ih =>
    simp only [intervalPairsOverlaps, List.mem_append]
    constructor
    · rintro (hx | hx)
      · rcases List.mem_filterMap.mp hx with ⟨b, hb, hfb⟩
        split at hfb
        · rename_i hcond
          rcases Option.some.injEq _ _ ▸ hfb with rfl
          exact ⟨c, b,
            List.cons_sublist_cons.mpr (List.singleton_sublist.mpr hb),
            rfl, hcond⟩
        · exact absurd hfb (by simp)
      · rcases ih.mp hx with ⟨a, b, hs, hxeq, hlt⟩
        exact ⟨a, b, hs.trans (List.sublist_cons_self c rest), hxeq, hlt⟩
    · rintro ⟨a, b, hs, hxeq, hlt⟩
      cases hs with
      | cons _ hs' =>
        exact Or.inr (ih.mpr ⟨a, b, hs', hxeq, hlt⟩)
      | cons₂ _ hs' =>
        refine Or.inl (List.mem_filterMap.mpr ⟨b, List.singleton_sublist.mp hs', ?_⟩)
        dsimp only
        subst hxeq
        rw [if_pos hlt]

/-! ### Chunk segmenter lemmas -/

theorem fdiv_chunk (a : Int) : a.fdiv CHUNK_SIZE = a / 1000 := by
  simp only [CHUNK_SIZE]
  exact Int.fdiv_eq_ediv a (by norm_num)

theorem ediv_decomp (t : Int) :
    1000 * (t / 1000) + t % 1000 = t ∧ 0 ≤ t % 1000 ∧ t % 1000 < 1000 :=
  ⟨Int.ediv_add_emod t 1000, Int.emod_nonneg t (by norm_num),
    Int.emod_lt_of_pos t (by norm_num)⟩

theorem chunkSeq_mem (fuel : Nat) : ∀ c cEnd x : Int,
    cEnd - c < CHUNK_SIZE * fuel →
    (x ∈ chunkSeq c cEnd fuel ↔ ∃ k : Nat, x = c + CHUNK_SIZE * k ∧ x ≤ cEnd) := by
  induction fuel with
  | zero =>
    intro c cEnd x h
    simp only [chunkSeq, List.not_mem_nil, false_iff]
    rintro ⟨k, rfl, hle⟩
    simp only [CHUNK_SIZE] at h hle
    omega
  | succ fuel ih =>
    intro c cEnd x h
    simp only [chunkSeq]
    by_cases hc : c ≤ cEnd
    · rw [if_pos hc]
      simp only [List.mem_cons]
      constructor
      · rintro (rfl | hx)
        · exact ⟨0, by simp, hc⟩
        · obtain ⟨k, rfl, hk⟩ := (ih (c + CHUNK_SIZE) cEnd x
            (by simp only [CHUNK_SIZE] at h ⊢; omega)).mp hx
          refine ⟨k + 1, ?_, hk⟩
          push_cast
          ring
      · rintro ⟨k, rfl, hk⟩
        cases k with
        | zero => left; simp
        | succ k' =>
          right
          refine (ih (c + CHUNK_SIZE) cEnd _
            (by simp only [CHUNK_SIZE] at h ⊢; omega)).mpr ⟨k', ?_, hk⟩
          push_cast
          ring
    · rw [if_neg hc]
      simp only [List.not_mem_nil, false_iff]
      rintro ⟨k, rfl, hk⟩
      simp only [CHUNK_SIZE] at hk
      omega

theorem chunksFor_mem (r : Record) (x : Int) :
    x ∈ chunksFor r ↔
      ∃ k : Nat, x = r.start / 1000 * 1000 + CHUNK_SIZE * k ∧
        x ≤ r.«end» / 1000 * 1000 := by
  unfold chunksFor
  rw [fdiv_chunk, fdiv_chunk]
  apply chunkSeq_mem
  simp only [CHUNK_SIZE]
  omega

theorem mem_segsFor (r : Record) (s : Segment) :
    s ∈ segsFor r ↔
      ∃ c ∈ chunksFor r, max r.start c < min r.«end» (c + CHUNK_SIZE) ∧
        s = ⟨c, toString c ++ "-" ++ toString (c + CHUNK_SIZE), r.layer,
          max r.start c - c, min r.«end» (c + CHUNK_SIZE) - c,
          max r.start c, min r.«end» (c + CHUNK_SIZE)⟩ := by
  unfold segsFor
  rw [List.mem_filterMap]
  constructor
  · rintro ⟨c, hc, hfc⟩
    dsimp only at hfc
    split at hfc
    · rename_i hcond
      exact ⟨c, hc, hcond, (Option.some.injEq _ _ ▸ hfc).symm⟩
    · exact absurd hfc (by simp)
  · rintro ⟨c, hc, hcond, rfl⟩
    exact ⟨c, hc, by rw [if_pos hcond]⟩

theorem segsFor_cov (r : Record) (t : Int) :
    (∃ s ∈ segsFor r, s.abs_start ≤ t ∧ t < s.abs_end) ↔
    (r.start ≤ t ∧ t < r.«end») := by
  constructor
  · rintro ⟨s, hs, h1, h2⟩
    rcases (mem_segsFor r s).mp hs with ⟨c, hc, hcond, rfl⟩
    exact ⟨le_trans (le_max_left _ _) h1, lt_of_lt_of_le h2 (min_le_left _ _)⟩
  · rintro ⟨h1, h2⟩
    obtain ⟨et1, et2, et3⟩ := ediv_decomp t
    obtain ⟨es1, es2, es3⟩ := ediv_decomp r.start
    obtain ⟨ee1, ee2, ee3⟩ := ediv_decomp r.«end»
    have hct : t / 1000 * 1000 ≤ t := by omega
    have htc : t < t / 1000 * 1000 + 1000 := by omega
    have hcf : t / 1000 * 1000 ∈ chunksFor r := by
      rw [chunksFor_mem]
      refine ⟨(t / 1000 - r.start / 1000).toNat, ?_, ?_⟩
      · simp only [CHUNK_SIZE]
        omega
      · omega
    have hcond : max r.start (t / 1000 * 1000) <
        min r.«end» (t / 1000 * 1000 + CHUNK_SIZE) := by
      simp only [CHUNK_SIZE, max_lt_iff, lt_min_iff]
      omega
    refine ⟨_, (mem_segsFor r _).mpr ⟨t / 1000 * 1000, hcf, hcond, rfl⟩, ?_, ?_⟩
    · exact max_le h1 hct
    · simp only [CHUNK_SIZE]
      exact lt_min h2 htc

theorem segsFor_cut (r : Record) (m : Int) (hd : CHUNK_SIZE ∣ m)
    (h1 : r.start < m) (h2 : m < r.«end») :
    (∃ s ∈ segsFor r, s.abs_end = m) ∧ (∃ s ∈ segsFor r, s.abs_start = m) := by
  have hmm : m / 1000 * 1000 = m := by
    refine Int.ediv_mul_cancel ?_
    simpa [CHUNK_SIZE] using hd
  obtain ⟨es1, es2, es3⟩ := ediv_decomp r.start
  obtain ⟨ee1, ee2, ee3⟩ := ediv_decomp r.«end»
  obtain ⟨em1, em2, em3⟩ := ediv_decomp m
  constructor
  · -- the segment in the chunk just before `m` ends at `m`
    have hcf : m - 1000 ∈ chunksFor r := by
      rw [chunksFor_mem]
      refine ⟨(m / 1000 - 1 - r.start / 1000).toNat, ?_, ?_⟩
      · simp only [CHUNK_SIZE]
        omega
      · omega
    have hcond : max r.start (m - 1000) < min r.«end» (m - 1000 + CHUNK_SIZE) := by
      simp only [CHUNK_SIZE, max_lt_iff, lt_min_iff]
      omega
    refine ⟨_, (mem_segsFor r _).mpr ⟨m - 1000, hcf, hcond, rfl⟩, ?_⟩
    simp only [CHUNK_SIZE]
    have : m - 1000 + 1000 = m := by ring
    rw [this, min_eq_right h2.le]
  · -- the segment in the chunk starting at `m` starts at `m`
    have hcf : m ∈ chunksFor r := by
      rw [chunksFor_mem]
      refine ⟨(m / 1000 - r.start / 1000).toNat, ?_, ?_⟩
      · simp only [CHUNK_SIZE]
        omega
      · omega
    have hcond : max r.start m < min r.«end» (m + CHUNK_SIZE) := by
      simp only [CHUNK_SIZE, max_lt_iff, lt_min_iff]
      omega
    refine ⟨_, (mem_segsFor r _).mpr ⟨m, hcf, hcond, rfl⟩, ?_⟩
    exact max_eq_right h1.le

theorem segsFor_endpoints (r : Record) : ∀ s ∈ segsFor r,
    (s.abs_start = r.start ∨ CHUNK_SIZE ∣ s.abs_start) ∧
    (s.abs_end = r.«end» ∨ CHUNK_SIZE ∣ s.abs_end) := by
  intro s hs
  rcases (mem_segsFor r s).mp hs with ⟨c, hc, hcond, rfl⟩
  have hcd : CHUNK_SIZE ∣ c := by
    rcases (chunksFor_mem r c).mp hc with ⟨k, rfl, _⟩
    refine dvd_add ?_ (Dvd.intro k rfl)
    simp only [CHUNK_SIZE]
    exact Dvd.intro_left _ rfl
  constructor
  · rcases max_choice r.start c with h | h
    · exact Or.inl h
    · right
      show CHUNK_SIZE ∣ max r.start c
      rw [h]
      exact hcd
  · rcases min_choice r.«end» (c + CHUNK_SIZE) with h | h
    · exact Or.inl h
    · right
      show CHUNK_SIZE ∣ min r.«end» (c + CHUNK_SIZE)
      rw [h]
      exact dvd_add hcd dvd_rfl

theorem segsFor_rel (r : Record) : ∀ s ∈ segsFor r,
    s.rel_start = s.abs_start - s.chunk_start ∧
    s.rel_end = s.abs_end - s.chunk_start ∧
    0 ≤ s.rel_start ∧ s.rel_start ≤ CHUNK_SIZE ∧
    0 ≤ s.rel_end ∧ s.rel_end ≤ CHUNK_SIZE := by
  intro s hs
  rcases (mem_segsFor r s).mp hs with ⟨c, hc, hcond, rfl⟩
  have hA : c ≤ max r.start c := le_max_right _ _
  have hB : min r.«end» (c + CHUNK_SIZE) ≤ c + CHUNK_SIZE := min_le_right _ _
  refine ⟨rfl, rfl, ?_, ?_, ?_, ?_⟩ <;>
    · dsimp only
      omega

theorem build_segments_mem (records : List Record) (s : Segment) :
    s ∈ (build_stretch_segments records).segments ↔ ∃ r ∈ records, s ∈ segsFor r := by
  simp only [build_stretch_segments]
  rw [mem_sortedBy]
  simp only [List.mem_flatten, List.mem_map]
  constructor
  · rintro ⟨l, ⟨r, hr, rfl⟩, hs⟩
    exact ⟨r, hr, hs⟩
  · rintro ⟨r, hr, hs⟩
    exact ⟨segsFor r, ⟨r, hr, rfl⟩, hs⟩

theorem segLe_total : ∀ a b : Segment, segLe a b = true ∨ segLe b a = true := by
  intro a b
  simp only [segLe, decide_eq_true_eq]
  rcases lt_trichotomy a.chunk_start b.chunk_start with h | h | h
  · exact Or.inl (Or.inl h)
  · rcases lt_trichotomy a.layer b.layer with h' | h' | h'
    · exact Or.inl (Or.inr ⟨h, Or.inl h'⟩)
    · rcases le_total a.rel_start b.rel_start with h'' | h''
      · exact Or.inl (Or.inr ⟨h, Or.inr ⟨h', h''⟩⟩)
      · exact Or.inr (Or.inr ⟨h.symm, Or.inr ⟨h'.symm, h''⟩⟩)
    · exact Or.inr (Or.inr ⟨h.symm, Or.inl h'⟩)
  · exact Or.inr (Or.inl h)

theorem segLe_trans : ∀ a b c : Segment,
    segLe a b = true → segLe b c = true → segLe a c = true := by
  intro a b c hab hbc
  simp only [segLe, decide_eq_true_eq] at hab hbc ⊢
  rcases hab with h1 | ⟨h1, h2⟩ <;> rcases hbc with h3 | ⟨h3, h4⟩
  · exact Or.inl (lt_trans h1 h3)
  · exact Or.inl (h3 ▸ h1)
  · exact Or.inl (h1 ▸ h3)
  · refine Or.inr ⟨h1.trans h3, ?_⟩
    rcases h2 with h2 | ⟨h2a, h2b⟩ <;> rcases h4 with h4 | ⟨h4a, h4b⟩
    · exact Or.inl (lt_trans h2 h4)
    · exact Or.inl (h4a ▸ h2)
    · exact Or.inl (h2a ▸ h4)
    · exact Or.inr ⟨h2a.trans h4a, le_trans h2b h4b⟩

/-! ### Composite-key lemmas -/

theorem takeWhile_append_all {α : Type} {p : α → Bool} (xs ys : List α)
    (h : ∀ x ∈ xs, p x = true) :
    (xs ++ ys).takeWhile p = xs ++ ys.takeWhile p := by
  induction xs with
  | nil => simp
  | cons a xs ih =>
    have hpa : p a = true := h a (by simp)
    simp [List.takeWhile_cons, hpa, ih (fun x hx => h x (by simp [hx]))]

theorem dropWhile_append_all {α : Type} {p : α → Bool} (xs ys : List α)
    (h : ∀ x ∈ xs, p x = true) :
    (xs ++ ys).dropWhile p = ys.dropWhile p := by
  induction xs with
  | nil => simp
  | cons a xs ih =>
    have hpa : p a = true := h a (by simp)
    simp [List.dropWhile_cons, hpa, ih (fun x hx => h x (by simp [hx]))]

theorem split1_keyOf (b l : String) (hb : '|' ∉ b.data) :
    split1 (keyOf b l) = (b, l) := by
  unfold split1 keyOf
  have hbar : ("|" : String).data = ['|'] := rfl
  have hdata : (b ++ "|" ++ l).data = b.data ++ '|' :: l.data := by
    rw [String.data_append, String.data_append, hbar]
    simp
  rw [hdata]
  have hall : ∀ c ∈ b.data, (fun c => decide (c ≠ '|')) c = true := by
    intro c hc
    simp only [decide_eq_true_eq]
    intro h'
    exact hb (h' ▸ hc)
  rw [dropWhile_append_all _ _ hall, takeWhile_append_all _ _ hall]
  have hmk : ∀ s : String, (⟨s.data⟩ : String) = s := fun _ => rfl
  simp [List.dropWhile_cons, List.takeWhile_cons, hmk]

theorem keyOf_inj (b₁ l₁ b₂ l₂ : String) (h1 : '|' ∉ b₁.data)
    (h2 : '|' ∉ b₂.data) (h : keyOf b₁ l₁ = keyOf b₂ l₂) :
    b₁ = b₂ ∧ l₁ = l₂ := by
  have e1 := split1_keyOf b₁ l₁ h1
  rw [h, split1_keyOf b₂ l₂ h2] at e1
  exact ⟨(Prod.mk.injEq _ _ _ _ |>.mp e1).1.symm,
         (Prod.mk.injEq _ _ _ _ |>.mp e1).2.symm⟩

theorem lookup_bump_eq (m : List (String × Int)) (k : String) (d : Int) :
    List.lookup k (bumpKey m k d) = some ((List.lookup k m).getD 0 + d) := by
  induction m with
  | nil => simp [bumpKey]
  | cons p rest ih =>
    obtain ⟨k', v⟩ := p
    simp only [bumpKey]
    by_cases h : k' = k
    · subst h; simp
    · have hbeq : (k == k') = false := by simp [beq_iff_eq]; exact Ne.symm h
      simp [List.lookup, h, hbeq, ih]

theorem lookup_bump_ne (m : List (String × Int)) (k k' : String) (d : Int)
    (h : k' ≠ k) : List.lookup k' (bumpKey m k d) = List.lookup k' m := by
  induction m with
  | nil => simp [bumpKey, h]
  | cons p rest ih =>
    obtain ⟨k'', v⟩ := p
    simp only [bumpKey]
    by_cases heq : k'' = k
    · subst heq
      have hbeq : (k' == k'') = false := by simp [beq_iff_eq]; exact h
      simp [List.lookup, hbeq]
    · simp only [if_neg heq, List.lookup_cons]
      by_cases heq' : k' = k''
      · subst heq'; simp
      · have hbeq : (k' == k'') = false := by simp [beq_iff_eq]; exact heq'
        simp [List.lookup, hbeq, ih]

theorem keys_bump (m : List (String × Int)) (k : String) (d : Int) :
    (bumpKey m k d).map Prod.fst =
      if k ∈ m.map Prod.fst then m.map Prod.fst else m.map Prod.fst ++ [k] := by
  induction m with
  | nil => simp [bumpKey]
  | cons p rest ih =>
    obtain ⟨k', v⟩ := p
    simp only [bumpKey]
    by_cases h : k' = k
    · subst h; simp
    · have : k ∈ (k' :: rest.map Prod.fst) ↔ k ∈ rest.map Prod.fst := by
        simp [Ne.symm h]
      simp only [if_neg h, List.map_cons, ih]
      by_cases hmem : k ∈ rest.map Prod.fst
      · simp [hmem, this, Ne.symm h]
      · simp [hmem, this, Ne.symm h]

theorem keysNodup_bump (m : List (String × Int)) (k : String) (d : Int)
    (h : (m.map Prod.fst).Nodup) : ((bumpKey m k d).map Prod.fst).Nodup := by
  rw [keys_bump]
  split
  · exact h
  · rename_i hmem
    simp [List.nodup_append, h, hmem]

theorem mem_iff_lookup_int (m : List (String × Int))
    (h : (m.map Prod.fst).Nodup) (k : String) (v : Int) :
    (k, v) ∈ m ↔ List.lookup k m = some v := by
  induction m with
  | nil => simp
  | cons p rest ih =>
    obtain ⟨k', v'⟩ := p
    simp only [List.map_cons, List.nodup_cons] at h
    obtain ⟨hk', hrest⟩ := h
    by_cases hkk : k = k'
    · subst hkk
      simp only [List.lookup_cons, beq_self_eq_true, if_true, List.mem_cons,
        Prod.mk.injEq, true_and, Option.some.injEq]
      constructor
      · rintro (h | hmem)
        · omega
        · exact absurd (List.mem_map.mpr ⟨(k, v), hmem, rfl⟩) hk'
      · intro h
        left
        omega
    · have hbeq : (k == k') = false := by simp [beq_iff_eq]; exact hkk
      simp [List.lookup, hbeq, ih hrest, hkk]

theorem bbl_fold (rs : List Record) :
    ∀ (m : List (String × Int)) (k : String),
      List.lookup k (rs.foldl (fun m r =>
          match getTruthy r.bill with
          | some b => bumpKey m (keyOf b r.layer) (r.«end» - r.start)
          | none => m) m) =
        match List.lookup k m with
        | some v => some (v + sumForKey rs k)
        | none =>
          if rs.any (fun r => decide (keyOf? r = some k)) then
            some (sumForKey rs k)
          else none := by
  induction rs with
  | nil =>
    intro m k
    simp only [List.foldl_nil]
    rcases hlm : List.lookup k m with _ | v <;> simp [sumForKey, hlm]
  | cons r rs' ih =>
    intro m k
    rw [List.foldl_cons, ih]
    rcases hb : getTruthy r.bill with _ | b
    · have hk0 : keyOf? r = none := by simp [keyOf?, hb]
      have hsum : sumForKey (r :: rs') k = sumForKey rs' k := by
        simp [sumForKey, List.filter_cons, hk0]
      have hany : (r :: rs').any (fun r => decide (keyOf? r = some k)) =
          rs'.any (fun r => decide (keyOf? r = some k)) := by
        simp [hk0]
      simp only [hb]
      rw [hsum, hany]
    · have hk0 : keyOf? r = some (keyOf b r.layer) := by simp [keyOf?, hb]
      simp only [hb]
      by_cases hkk : keyOf b r.layer = k
      · subst hkk
        rw [lookup_bump_eq]
        have hsum : sumForKey (r :: rs') (keyOf b r.layer) =
            (r.«end» - r.start) + sumForKey rs' (keyOf b r.layer) := by
          simp [sumForKey, List.filter_cons, hk0]
        have hany : (r :: rs').any
            (fun r' => decide (keyOf? r' = some (keyOf b r.layer))) = true := by
          simp [hk0]
        rw [hsum, hany]
        rcases hlm : List.lookup (keyOf b r.layer) m with _ | v
        · simp [hlm]
        · simp [hlm]
          omega
      · rw [lookup_bump_ne _ _ _ _ (fun h => hkk h.symm)]
        have hsum : sumForKey (r :: rs') k = sumForKey rs' k := by
          simp [sumForKey, List.filter_cons, hk0, hkk]
        have hany : (r :: rs').any (fun r' => decide (keyOf? r' = some k)) =
            rs'.any (fun r' => decide (keyOf? r' = some k)) := by
          simp [hk0, hkk]
        rw [hsum, hany]

theorem bbl_keys_nodup (rs : List Record) :
    ∀ m : List (String × Int), (m.map Prod.fst).Nodup →
      ((rs.foldl (fun m r =>
          match getTruthy r.bill with
          | some b => bumpKey m (keyOf b r.layer) (r.«end» - r.start)
          | none => m) m).map Prod.fst).Nodup := by
  induction rs with
  | nil => intro m hm; simpa using hm
  | cons r rs' ih =>
    intro m hm
    rw [List.foldl_cons]
    rcases hb : getTruthy r.bill with _ | b
    · simp only [hb]
      exact ih m hm
    · simp only [hb]
      exact ih _ (keysNodup_bump m _ _ hm)

/-! ### Claims -/

/-- C1: for every list of intervals, `merge_intervals` returns a list
sorted ascending by `start` in which every adjacent pair satisfies
`result[i].end < result[i+1].start` strictly (no two output intervals
touch or overlap); touching inputs are coalesced, e.g. `[0,10)` and
`[10,20)` merge into `[0,20)`; and the empty input yields the empty
list. -/
theorem merge_intervals_correct :
    (∀ l : List Interval,
      (merge_intervals l).Pairwise (fun a b : Interval => a.start ≤ b.start) ∧
      (merge_intervals l).Chain' (fun a b : Interval => a.«end» < b.start)) ∧
    merge_intervals [⟨0, 10⟩, ⟨10, 20⟩] = [⟨0, 20⟩] ∧
    merge_intervals [] = [] :=
  ⟨fun l => ⟨merge_intervals_sorted l, merge_intervals_chain l⟩,
   by decide, by decide⟩

/-- C2: for a non-empty record list whose records all satisfy
`start < end`, and any layer present in it, the layer's merged coverage
together with the gaps `find_gaps_per_layer` returns for it exactly tiles
the route-wide half-open range `[min_start, max_end)` — every point of
the range is covered by exactly one of the two, nothing outside is — and
every gap entry's `len` equals `end - start`. -/
theorem find_gaps_per_layer_tiles (records : List Record)
    (hv : ∀ r ∈ records, r.start < r.«end») (layer : String)
    (hl : ∃ r ∈ records, r.layer = layer) :
    ∃ ms me gapsMap G,
      minStart? records = some ms ∧ maxEnd? records = some me ∧
      find_gaps_per_layer records = some gapsMap ∧
      List.lookup layer gapsMap = some G ∧
      (∀ g ∈ G, g.len = g.«end» - g.start) ∧
      ∀ t : Int,
        (((∃ i ∈ merge_intervals (intervalsOf records layer),
            i.start ≤ t ∧ t < i.«end») ∨
          (∃ g ∈ G, g.start ≤ t ∧ t < g.«end»)) ↔ (ms ≤ t ∧ t < me)) ∧
        ¬((∃ i ∈ merge_intervals (intervalsOf records layer),
            i.start ≤ t ∧ t < i.«end») ∧
          (∃ g ∈ G, g.start ≤ t ∧ t < g.«end»)) := by
  obtain ⟨r0, hr0, hr0l⟩ := hl
  rcases hms : minStart? records with _ | ms
  · cases records with
    | nil => exact absurd hr0 (List.not_mem_nil r0)
    | cons rh rt => exact absurd hms (by simp [minStart?])
  rcases hme : maxEnd? records with _ | me
  · cases records with
    | nil => exact absurd hr0 (List.not_mem_nil r0)
    | cons rh rt => exact absurd hme (by simp [maxEnd?])
  have hgm : find_gaps_per_layer records =
      some ((byLayer records).map fun p =>
        (p.1, gapsAux ms (merge_intervals p.2) me)) := by
    simp [find_gaps_per_layer, hms, hme]
  have hlook : List.lookup layer
      ((byLayer records).map fun p =>
        (p.1, gapsAux ms (merge_intervals p.2) me)) =
      some (gapsAux ms (merge_intervals (intervalsOf records layer)) me) := by
    have h := lookup_mapSnd (byLayer records)
      (fun ivs => gapsAux ms (merge_intervals ivs) me) layer
    rw [byLayer_lookup records layer ⟨r0, hr0, hr0l⟩] at h
    simpa using h
  have hvo : ∀ z ∈ intervalsOf records layer, z.start < z.«end» := by
    intro z hz
    rcases List.mem_map.mp hz with ⟨r, hr, rfl⟩
    exact hv r (List.mem_of_mem_filter hr)
  have hmerged := merge_intervals_valid (intervalsOf records layer) hvo
  have hpair := chain_sep_pairwise (merge_intervals (intervalsOf records layer))
    (merge_intervals_chain _) hmerged
  have hpos : ∀ s ∈ merge_intervals (intervalsOf records layer), ms ≤ s.start := by
    intro s hs
    rcases (merge_intervals_origin _ s hs).1 with ⟨z, hz, hzs⟩
    rcases List.mem_map.mp hz with ⟨r, hr, rfl⟩
    rw [hzs]
    exact minStart?_le records ms hms r (List.mem_of_mem_filter hr)
  have hend : ∀ s ∈ merge_intervals (intervalsOf records layer), s.«end» ≤ me := by
    intro s hs
    rcases (merge_intervals_origin _ s hs).2 with ⟨z, hz, hzs⟩
    rcases List.mem_map.mp hz with ⟨r, hr, rfl⟩
    rw [hzs]
    exact maxEnd?_ge records me hme r (List.mem_of_mem_filter hr)
  exact ⟨ms, me, _, _, rfl, rfl, hgm, hlook, gapsAux_len _ _ _,
    fun t => gapsAux_tiling _ ms me hpair hpos hmerged hend t⟩

/-- C2 witness: the tiling theorem applied to a concrete two-layer record
set with `min_start = 0` and `max_end = 150`. -/
theorem find_gaps_per_layer_tiles_witness :
    ∃ ms me gapsMap G,
      minStart? [⟨"L", 100, 150, none, none⟩, ⟨"M", 0, 50, none, none⟩] = some ms ∧
      maxEnd? [⟨"L", 100, 150, none, none⟩, ⟨"M", 0, 50, none, none⟩] = some me ∧
      find_gaps_per_layer
        [⟨"L", 100, 150, none, none⟩, ⟨"M", 0, 50, none, none⟩] = some gapsMap ∧
      List.lookup "L" gapsMap = some G ∧
      (∀ g ∈ G, g.len = g.«end» - g.start) ∧
      ∀ t : Int,
        (((∃ i ∈ merge_intervals (intervalsOf
              [⟨"L", 100, 150, none, none⟩, ⟨"M", 0, 50, none, none⟩] "L"),
            i.start ≤ t ∧ t < i.«end») ∨
          (∃ g ∈ G, g.start ≤ t ∧ t < g.«end»)) ↔ (ms ≤ t ∧ t < me)) ∧
        ¬((∃ i ∈ merge_intervals (intervalsOf
              [⟨"L", 100, 150, none, none⟩, ⟨"M", 0, 50, none, none⟩] "L"),
            i.start ≤ t ∧ t < i.«end») ∧
          (∃ g ∈ G, g.start ≤ t ∧ t < g.«end»)) :=
  find_gaps_per_layer_tiles
    [⟨"L", 100, 150, none, none⟩, ⟨"M", 0, 50, none, none⟩]
    (by decide) "L" (by decide)

/-- C3: `find_overlaps_within_layer` maps each layer present in the
records to the merge of all strictly non-empty pairwise intersections
`[max(a.start,b.start), min(a.end,b.end))` of that layer's raw intervals,
each entry carrying `len = end - start`; in particular for the records
`("L",0,100)` and `("L",50,150)` it returns exactly one overlap `[50,100)`
of length 50, while the merged coverage length reported by the progress
aggregator for those two records is 150, not 200. -/
theorem find_overlaps_within_layer_spec :
    (∀ (records : List Record) (layer : String),
      (∃ r ∈ records, r.layer = layer) →
      List.lookup layer (find_overlaps_within_layer records) =
        some ((merge_intervals
            (intervalPairsOverlaps (intervalsOf records layer))).map
          fun m => ⟨m.start, m.«end», m.«end» - m.start⟩)) ∧
    (∀ (l : List Interval) (x : Interval),
      x ∈ intervalPairsOverlaps l ↔
        ∃ a b : Interval, [a, b].Sublist l ∧
          x = ⟨max a.start b.start, min a.«end» b.«end»⟩ ∧
          x.start < x.«end») ∧
    (find_overlaps_within_layer
        [⟨"L", 0, 100, none, none⟩, ⟨"L", 50, 150, none, none⟩] =
      [("L", [⟨50, 100, 50⟩])]) ∧
    ((compute_progress
        [⟨"L", 0, 100, none, none⟩, ⟨"L", 50, 150, none, none⟩] 150).per_layer.map
      fun p => (p.1, p.2.len)) = [("L", 150)] := by
  refine ⟨?_, mem_intervalPairsOverlaps, by decide, by decide⟩
  intro records layer h
  unfold find_overlaps_within_layer
  have hm := lookup_mapSnd (byLayer records)
    (fun ivs => (merge_intervals (intervalPairsOverlaps ivs)).map
      fun m => (⟨m.start, m.«end», m.«end» - m.start⟩ : Entry)) layer
  rw [byLayer_lookup records layer h] at hm
  exact hm

/-- C3 witness: the lookup equation instantiated at a concrete record
set and layer. -/
theorem find_overlaps_within_layer_spec_witness :
    List.lookup "L" (find_overlaps_within_layer
        [⟨"L", 0, 100, none, none⟩, ⟨"L", 50, 150, none, none⟩]) =
      some ((merge_intervals (intervalPairsOverlaps (intervalsOf
          [⟨"L", 0, 100, none, none⟩, ⟨"L", 50, 150, none, none⟩] "L"))).map
        fun m => ⟨m.start, m.«end», m.«end» - m.start⟩) :=
  find_overlaps_within_layer_spec.1
    [⟨"L", 0, 100, none, none⟩, ⟨"L", 50, 150, none, none⟩] "L" (by decide)

/-- C5 counterexample: the claim says `parse_stretch` returns a pair only
when `start < end`, but on the input `"5-5"` it returns `(5, 5)` with
`start = end`: the guard in the code is `start <= end`, not strict. -/
theorem parse_stretch_counterexample :
    parse_stretch "5-5" = some (5, 5) ∧ ¬((5 : Int) < 5) := by decide

/-- C5 amended: `parse_stretch` returns a pair `(start, end)` only when
`0 ≤ start ≤ end` — equality is allowed, so a record with `start = end`
can enter the engine's record list. -/
theorem parse_stretch_nonneg_le :
    ∀ (s : String) (a b : Int), parse_stretch s = some (a, b) →
      0 ≤ a ∧ a ≤ b := by
  intro s a b h
  unfold parse_stretch at h
  split at h
  · exact absurd h (by simp)
  · rcases hm : matchStretch (stripChars s.data) with _ | ⟨d1, d2⟩
    · rw [hm] at h
      exact absurd h (by simp)
    · rw [hm] at h
      dsimp only at h
      split at h
      · rename_i hle
        have hpair : (digitsVal d1, digitsVal d2) = (a, b) :=
          Option.some.injEq _ _ ▸ h
        obtain ⟨ha, hb⟩ := Prod.mk.injEq _ _ _ _ |>.mp hpair
        subst ha
        subst hb
        exact ⟨Int.natCast_nonneg _, hle⟩
      · exact absurd h (by simp)

/-- C5 witness: the amended theorem applied at `" 100 - 150 "`. -/
theorem parse_stretch_nonneg_le_witness :
    parse_stretch " 100 - 150 " = some (100, 150) ∧
    (0 ≤ (100 : Int) ∧ (100 : Int) ≤ 150) :=
  ⟨by decide, parse_stretch_nonneg_le " 100 - 150 " 100 150 (by decide)⟩

/-- C4: for a record `[start,end)` with `start < end`, the union of the
absolute ranges of the segments `build_stretch_segments` emits for it is
exactly `[start,end)`, split precisely at every multiple of 1000 strictly
inside the range (every such multiple is a cut, and every internal
endpoint is either a record endpoint or a multiple of 1000); every
segment's `rel_start`/`rel_end` are the absolute coordinates shifted by
`chunk_start` and lie in `[0, 1000]`; and for any record list the
returned segments are sorted by `(chunk_start, layer, rel_start)` and
`layers` and `chunks` are deduplicated and sorted ascending. -/
theorem build_stretch_segments_spec :
    (∀ r : Record, r.start < r.«end» →
      (∀ t : Int,
        (∃ s ∈ (build_stretch_segments [r]).segments,
          s.abs_start ≤ t ∧ t < s.abs_end) ↔ (r.start ≤ t ∧ t < r.«end»)) ∧
      (∀ m : Int, CHUNK_SIZE ∣ m → r.start < m → m < r.«end» →
        (∃ s ∈ (build_stretch_segments [r]).segments, s.abs_end = m) ∧
        (∃ s ∈ (build_stretch_segments [r]).segments, s.abs_start = m)) ∧
      (∀ s ∈ (build_stretch_segments [r]).segments,
        (s.abs_start = r.start ∨ CHUNK_SIZE ∣ s.abs_start) ∧
        (s.abs_end = r.«end» ∨ CHUNK_SIZE ∣ s.abs_end))) ∧
    (∀ records : List Record,
      (∀ s ∈ (build_stretch_segments records).segments,
        s.rel_start = s.abs_start - s.chunk_start ∧
        s.rel_end = s.abs_end - s.chunk_start ∧
        0 ≤ s.rel_start ∧ s.rel_start ≤ CHUNK_SIZE ∧
        0 ≤ s.rel_end ∧ s.rel_end ≤ CHUNK_SIZE) ∧
      (build_stretch_segments records).segments.Pairwise
        (fun a b : Segment => a.chunk_start < b.chunk_start ∨
          (a.chunk_start = b.chunk_start ∧ (a.layer < b.layer ∨
            (a.layer = b.layer ∧ a.rel_start ≤ b.rel_start)))) ∧
      ((build_stretch_segments records).layers.Nodup ∧
        (build_stretch_segments records).layers.Pairwise
          (fun a b : String => a ≤ b)) ∧
      ((build_stretch_segments records).chunks.Nodup ∧
        (build_stretch_segments records).chunks.Pairwise
          (fun a b : Int => a ≤ b))) := by
  have hmem1 : ∀ (r : Record) (s : Segment),
      s ∈ (build_stretch_segments [r]).segments ↔ s ∈ segsFor r := by
    intro r s
    rw [build_segments_mem]
    simp
  constructor
  · intro r hr
    refine ⟨?_, ?_, ?_⟩
    · intro t
      rw [← segsFor_cov r t]
      constructor
      · rintro ⟨s, hs, h⟩
        exact ⟨s, (hmem1 r s).mp hs, h⟩
      · rintro ⟨s, hs, h⟩
        exact ⟨s, (hmem1 r s).mpr hs, h⟩
    · intro m hd h1 h2
      obtain ⟨⟨s1, hs1, he1⟩, ⟨s2, hs2, he2⟩⟩ := segsFor_cut r m hd h1 h2
      exact ⟨⟨s1, (hmem1 r s1).mpr hs1, he1⟩, ⟨s2, (hmem1 r s2).mpr hs2, he2⟩⟩
    · intro s hs
      exact segsFor_endpoints r s ((hmem1 r s).mp hs)
  · intro records
    refine ⟨?_, ?_, ⟨?_, ?_⟩, ⟨?_, ?_⟩⟩
    · intro s hs
      rcases (build_segments_mem records s).mp hs with ⟨r, hr, hsr⟩
      exact segsFor_rel r s hsr
    · have h := sortedBy_pairwise segLe segLe_total segLe_trans
        ((records.map segsFor).flatten)
      exact h.imp (fun hab => by simpa [segLe] using hab)
    · have hperm := sortedBy_perm (fun a b : String => decide (a ≤ b))
        ((records.map Record.layer).dedup)
      exact hperm.nodup_iff.mpr (List.nodup_dedup _)
    · have h := sortedBy_pairwise (fun a b : String => decide (a ≤ b))
        (fun a b => by
          rcases le_total a b with h | h
          · left; simpa using h
          · right; simpa using h)
        (fun a b c hab hbc => by
          simp only [decide_eq_true_eq] at hab hbc ⊢
          exact le_trans hab hbc)
        ((records.map Record.layer).dedup)
      exact h.imp (fun hab => by simpa using hab)
    · have hperm := sortedBy_perm (fun a b : Int => decide (a ≤ b))
        ((records.map chunksFor).flatten.dedup)
      exact hperm.nodup_iff.mpr (List.nodup_dedup _)
    · have h := sortedBy_pairwise (fun a b : Int => decide (a ≤ b))
        (fun a b => by
          rcases le_total a b with h | h
          · left; simpa using h
          · right; simpa using h)
        (fun a b c hab hbc => by
          simp only [decide_eq_true_eq] at hab hbc ⊢
          exact le_trans hab hbc)
        ((records.map chunksFor).flatten.dedup)
      exact h.imp (fun hab => by simpa using hab)

/-- C4 witness: for the record `("L", 500, 2500)` the segment list covers
the point 700, some segment ends at the internal multiple 1000, and some
segment starts at the internal multiple 2000. -/
theorem build_stretch_segments_spec_witness :
    (∃ s ∈ (build_stretch_segments [⟨"L", 500, 2500, none, none⟩]).segments,
      s.abs_start ≤ (700 : Int) ∧ (700 : Int) < s.abs_end) ∧
    (∃ s ∈ (build_stretch_segments [⟨"L", 500, 2500, none, none⟩]).segments,
      s.abs_end = (1000 : Int)) ∧
    (∃ s ∈ (build_stretch_segments [⟨"L", 500, 2500, none, none⟩]).segments,
      s.abs_start = (2000 : Int)) :=
  ⟨((build_stretch_segments_spec.1 ⟨"L", 500, 2500, none, none⟩
      (by decide)).1 700).mpr (by decide),
   ((build_stretch_segments_spec.1 ⟨"L", 500, 2500, none, none⟩
      (by decide)).2.1 1000 (by decide) (by decide) (by decide)).1,
   ((build_stretch_segments_spec.1 ⟨"L", 500, 2500, none, none⟩
      (by decide)).2.1 2000 (by decide) (by decide) (by decide)).2⟩

/-- C6: with `route_extent = 0` `compute_progress` raises nothing (it is
a total function here) and every percentage field — `overall_pct`, every
per-layer `pct`, every per-(bill,layer) `pct` — is exactly 0, while all
the `len` fields are computed exactly as for any other extent. -/
theorem compute_progress_zero_extent :
    ∀ records : List Record,
      (compute_progress records 0).overall_pct = 0 ∧
      (∀ p ∈ (compute_progress records 0).per_layer, p.2.pct = 0) ∧
      (∀ row ∈ (compute_progress records 0).per_layer_per_bill, row.pct = 0) ∧
      ∀ e : Int,
        (compute_progress records 0).overall_len =
          (compute_progress records e).overall_len ∧
        ((compute_progress records 0).per_layer.map fun p => (p.1, p.2.len)) =
          ((compute_progress records e).per_layer.map fun p => (p.1, p.2.len)) ∧
        ((compute_progress records 0).per_layer_per_bill.map
            fun row => (row.bill, row.layer, row.len)) =
          ((compute_progress records e).per_layer_per_bill.map
            fun row => (row.bill, row.layer, row.len)) := by
  intro records
  refine ⟨?_, ?_, ?_, ?_⟩
  · show pctOf ((merge_intervals (records.map fun r =>
        Interval.mk r.start r.«end»)).map fun m => m.«end» - m.start).sum 0 = 0
    simp [pctOf]
  · intro p hp
    have hp' : p ∈ (byLayer records).map (fun q =>
        (q.1, LayerStat.mk
          (((merge_intervals q.2).map fun m => m.«end» - m.start).sum)
          (pctOf (((merge_intervals q.2).map fun m => m.«end» - m.start).sum)
            0))) := hp
    rcases List.mem_map.mp hp' with ⟨q, hq, rfl⟩
    simp [pctOf]
  · intro row hrow
    have hrow' : row ∈ sortedBy billRowLe ((records.foldl (fun m r =>
        match getTruthy r.bill with
        | some b => bumpKey m (keyOf b r.layer) (r.«end» - r.start)
        | none => m) []).map fun p =>
          BillRow.mk (split1 p.1).1 (split1 p.1).2 p.2 (pctOf p.2 0)) := hrow
    rcases List.mem_map.mp ((mem_sortedBy _ _ _).mp hrow') with ⟨q, hq, rfl⟩
    simp [pctOf]
  · intro e
    refine ⟨rfl, ?_, ?_⟩
    · show ((byLayer records).map _).map _ = ((byLayer records).map _).map _
      rw [List.map_map, List.map_map]
      rfl
    · have h0 := sortedBy_map
        (fun row : BillRow => (row.bill, row.layer, row.len)) billRowLe
        (fun x y : String × String × Int =>
          decide (x.1 < y.1 ∨ (x.1 = y.1 ∧ x.2.1 ≤ y.2.1)))
        (fun a b => rfl)
        ((records.foldl (fun m r =>
          match getTruthy r.bill with
          | some b => bumpKey m (keyOf b r.layer) (r.«end» - r.start)
          | none => m) []).map fun p =>
            BillRow.mk (split1 p.1).1 (split1 p.1).2 p.2 (pctOf p.2 0))
      have he := sortedBy_map
        (fun row : BillRow => (row.bill, row.layer, row.len)) billRowLe
        (fun x y : String × String × Int =>
          decide (x.1 < y.1 ∨ (x.1 = y.1 ∧ x.2.1 ≤ y.2.1)))
        (fun a b => rfl)
        ((records.foldl (fun m r =>
          match getTruthy r.bill with
          | some b => bumpKey m (keyOf b r.layer) (r.«end» - r.start)
          | none => m) []).map fun p =>
            BillRow.mk (split1 p.1).1 (split1 p.1).2 p.2 (pctOf p.2 e))
      have hmid : ∀ ext : Int,
          ((records.foldl (fun m r =>
            match getTruthy r.bill with
            | some b => bumpKey m (keyOf b r.layer) (r.«end» - r.start)
            | none => m) []).map fun p =>
              BillRow.mk (split1 p.1).1 (split1 p.1).2 p.2 (pctOf p.2 ext)).map
            (fun row : BillRow => (row.bill, row.layer, row.len)) =
          (records.foldl (fun m r =>
            match getTruthy r.bill with
            | some b => bumpKey m (keyOf b r.layer) (r.«end» - r.start)
            | none => m) []).map
            (fun p => ((split1 p.1).1, (split1 p.1).2, p.2)) := by
        intro ext
        rw [List.map_map]
        rfl
      exact (h0.trans (by rw [hmid 0, ← hmid e])).trans he.symm

/-- C6 witness: the zero-extent theorem applied to a concrete one-record
set, with its per-layer entry and per-bill row. -/
theorem compute_progress_zero_extent_witness :
    (compute_progress [⟨"L", 0, 10, some "B1", none⟩] 0).overall_pct = 0 ∧
    ("L", LayerStat.mk 10 0).2.pct = 0 ∧
    (BillRow.mk "B1" "L" 10 0).pct = 0 :=
  ⟨(compute_progress_zero_extent [⟨"L", 0, 10, some "B1", none⟩]).1,
   (compute_progress_zero_extent [⟨"L", 0, 10, some "B1", none⟩]).2.1
     ("L", LayerStat.mk 10 0) (by decide),
   (compute_progress_zero_extent [⟨"L", 0, 10, some "B1", none⟩]).2.2.1
     (BillRow.mk "B1" "L" 10 0) (by decide)⟩

/-- C7: `filter_records` keeps exactly the records passing both axes —
pass means the tag is absent, the filter list is empty, or the tag is a
member of the list — given the data-model invariant that present tags are
non-empty strings; in particular filtering by bill `"B1"` drops records
with another bill but keeps records with no bill tag. -/
theorem filter_records_spec (records : List Record) (fb fm : List String)
    (hb : ∀ r ∈ records, r.bill ≠ some "" ∧ r.month ≠ some "") :
    filter_records records fb fm =
      records.filter
        (fun r => specPassAxis r.bill fb && specPassAxis r.month fm) ∧
    filter_records
        [⟨"L", 0, 10, none, none⟩, ⟨"L", 10, 20, some "B1", none⟩,
         ⟨"L", 20, 30, some "B2", none⟩] ["B1"] [] =
      [⟨"L", 0, 10, none, none⟩, ⟨"L", 10, 20, some "B1", none⟩] := by
  constructor
  · unfold filter_records
    apply List.filter_congr
    intro r hr
    rcases hb r hr with ⟨hbill, hmonth⟩
    rw [← skip_vs_pass r.bill fb hbill, ← skip_vs_pass r.month fm hmonth]
  · decide

/-- C7 witness: the filtering equation at a concrete record set and
filters. -/
theorem filter_records_spec_witness :
    filter_records
        [⟨"L", 0, 10, none, none⟩, ⟨"L", 10, 20, some "B1", none⟩,
         ⟨"L", 20, 30, some "B2", none⟩] ["B1"] [] =
      List.filter
        (fun r => specPassAxis r.bill ["B1"] && specPassAxis r.month [])
        [⟨"L", 0, 10, none, none⟩, ⟨"L", 10, 20, some "B1", none⟩,
         ⟨"L", 20, 30, some "B2", none⟩] :=
  (filter_records_spec
    [⟨"L", 0, 10, none, none⟩, ⟨"L", 10, 20, some "B1", none⟩,
     ⟨"L", 20, 30, some "B2", none⟩] ["B1"] [] (by decide)).1

/-- C8: the two front ends implement the same engine: each of the six
engine functions translated from app_dash.py agrees with the function of
the same name translated from app_streamlit.py on every input. -/
theorem engines_agree :
    (∀ l, StreamlitApp.merge_intervals l = merge_intervals l) ∧
    (∀ records, StreamlitApp.find_overlaps_within_layer records =
      find_overlaps_within_layer records) ∧
    (∀ records, StreamlitApp.find_gaps_per_layer records =
      find_gaps_per_layer records) ∧
    (∀ records, StreamlitApp.build_stretch_segments records =
      build_stretch_segments records) ∧
    (∀ records fb fm, StreamlitApp.filter_records records fb fm =
      filter_records records fb fm) ∧
    (∀ records e, StreamlitApp.compute_progress records e =
      compute_progress records e) :=
  ⟨fun l => by rw [sl_merge_eq],
   fun records => by rw [sl_overlaps_eq],
   fun records => by rw [sl_gaps_eq],
   fun records => by rw [sl_build_eq],
   fun records fb fm => by rw [sl_filter_eq],
   fun records e => by rw [sl_compute_eq]⟩

/-- C9: `find_gaps_per_layer` is total exactly on non-empty inputs: the
empty record list reaches the `min` of an empty sequence (a `ValueError`
in Python, `none` here), while every non-empty record list yields a gaps
mapping. -/
theorem find_gaps_per_layer_totality :
    find_gaps_per_layer ([] : List Record) = none ∧
    ∀ records : List Record, records ≠ [] →
      (find_gaps_per_layer records).isSome = true := by
  constructor
  · rfl
  · intro records h
    match records, h with
    | r :: rs, _ => rfl

/-- C9 witness: a one-record list yields a gaps mapping. -/
theorem find_gaps_per_layer_totality_witness :
    (find_gaps_per_layer [⟨"L", 0, 1, none, none⟩]).isSome = true :=
  find_gaps_per_layer_totality.2 [⟨"L", 0, 1, none, none⟩] (by decide)

/-- C10: when no bill tag contains the separator `"|"`, every
`per_layer_per_bill` row's `bill` and `layer` round-trip through the
composite key — they equal those of some contributing record, and the
row's `len` is the sum of the raw lengths of exactly the records with
that bill and layer; whereas for a record whose bill is `"A|B"`, the
reconstructed pair is `("A", "B|L")`, not the record's `("A|B", "L")`. -/
theorem compute_progress_key_roundtrip :
    (∀ (records : List Record) (e : Int),
      (∀ r ∈ records, '|' ∉ ((getTruthy r.bill).getD "").data) →
      ∀ row ∈ (compute_progress records e).per_layer_per_bill,
        (∃ r ∈ records, getTruthy r.bill = some row.bill ∧
          r.layer = row.layer) ∧
        row.len = ((records.filter fun r =>
            decide (getTruthy r.bill = some row.bill ∧
              r.layer = row.layer)).map
          fun r => r.«end» - r.start).sum) ∧
    ((compute_progress [⟨"L", 0, 10, some "A|B", none⟩] 10).per_layer_per_bill.map
        fun row => (row.bill, row.layer, row.len)) = [("A", "B|L", 10)] ∧
    ¬(("A" : String) = "A|B" ∧ ("B|L" : String) = "L") := by
  refine ⟨?_, by decide, by decide⟩
  intro records e hbar row hrow
  have hrow' : row ∈ sortedBy billRowLe ((records.foldl (fun m r =>
      match getTruthy r.bill with
      | some b => bumpKey m (keyOf b r.layer) (r.«end» - r.start)
      | none => m) []).map fun p =>
        BillRow.mk (split1 p.1).1 (split1 p.1).2 p.2 (pctOf p.2 e)) := hrow
  rcases List.mem_map.mp ((mem_sortedBy _ _ _).mp hrow') with ⟨⟨k, v⟩, hkv, rfl⟩
  have hnodup := bbl_keys_nodup records [] (by simp)
  have hlook : List.lookup k (records.foldl (fun m r =>
      match getTruthy r.bill with
      | some b => bumpKey m (keyOf b r.layer) (r.«end» - r.start)
      | none => m) []) = some v :=
    (mem_iff_lookup_int _ hnodup k v).mp hkv
  have hfold := bbl_fold records [] k
  rw [hlook] at hfold
  by_cases hany : records.any (fun r => decide (keyOf? r = some k)) = true
  · simp only [List.lookup_nil, hany, if_true] at hfold
    have hv : v = sumForKey records k := by
      injection hfold with hv
    obtain ⟨r, hr, hkr⟩ := List.any_eq_true.mp hany
    simp only [decide_eq_true_eq] at hkr
    rcases hgb : getTruthy r.bill with _ | b
    · rw [keyOf?, hgb] at hkr
      exact absurd hkr (by simp)
    · have hk : k = keyOf b r.layer := by
        rw [keyOf?, hgb] at hkr
        simpa using hkr.symm
      have hbarb : '|' ∉ b.data := by
        have hh := hbar r hr
        rw [hgb] at hh
        simpa using hh
      have hsplit : split1 k = (b, r.layer) := by
        rw [hk]
        exact split1_keyOf b r.layer hbarb
      constructor
      · refine ⟨r, hr, ?_, ?_⟩
        · show getTruthy r.bill = some (split1 k).1
          rw [hsplit, hgb]
        · show r.layer = (split1 k).2
          rw [hsplit]
      · show v = _
        rw [hv]
        unfold sumForKey
        refine congrArg List.sum (congrArg (List.map _) ?_)
        apply List.filter_congr
        intro r' hr'
        rcases hgb' : getTruthy r'.bill with _ | b'
        · simp [keyOf?, hgb', hsplit]
        · have hbarb' : '|' ∉ b'.data := by
            have hh := hbar r' hr'
            rw [hgb'] at hh
            simpa using hh
          simp only [keyOf?, hgb', Option.map_some', hsplit,
            decide_eq_decide]
          constructor
          · intro h'
            have h'' : keyOf b' r'.layer = keyOf b r.layer := by
              rw [← hk]
              exact Option.some.injEq _ _ ▸ h'
            have hj := keyOf_inj b' r'.layer b r.layer hbarb' hbarb h''
            exact ⟨by rw [hj.1], hj.2⟩
          · rintro ⟨hb', hl'⟩
            have hb'' : b' = b := by
              injection hb'
            rw [hk, hb'', hl']
  · simp only [List.lookup_nil, hany, if_false] at hfold
    exact absurd hfold (by simp)

/-- C10 witness: for a record with bill `"B1"` (no separator inside) the
row's key round-trips and its length is the raw sum. -/
theorem compute_progress_key_roundtrip_witness :
    (∃ r ∈ [(⟨"L", 0, 10, some "B1", none⟩ : Record)],
      getTruthy r.bill = some "B1" ∧ r.layer = "L") ∧
    (10 : Int) = (([(⟨"L", 0, 10, some "B1", none⟩ : Record)].filter fun r =>
        decide (getTruthy r.bill = some "B1" ∧ r.layer = "L")).map
      fun r => r.«end» - r.start).sum :=
  compute_progress_key_roundtrip.1 [⟨"L", 0, 10, some "B1", none⟩] 0
    (by decide) (BillRow.mk "B1" "L" 10 0) (by decide)

end LayerViewer
